import Mathlib

/-!
Verification of the go-var-template repository: a shallow embedding of
`compile.go` and `template.go` (the variant with file/bash/shell_quote
directives) over `List Char`, together with theorems about the claims.

Go strings are modelled as `List Char`; all byte comparisons in the source
are against ASCII characters, for which char-level and byte-level scanning
coincide.  Go `int` indices are modelled as `Nat` (they are list offsets,
non-negative in every reachable state); the few places where the source
computes a possibly-negative intermediate index (`vr.open-1`) use `Int`
at the call site, mirroring Go's signed comparison.
-/

namespace VT

/-- Convert a Lean string literal to the `List Char` representation. -/
def str (s : String) : List Char := s.data

/-- The single-quote character (ASCII 39), used by shell quoting. -/
def quoteChar : Char := Char.ofNat 39

/-- Go `unicode.IsSpace` restricted to the ASCII range (the only
whitespace the tests and claims exercise). -/
def isSpaceGo (c : Char) : Bool :=
  c = ' ' || c = '\t' || c = '\n' || c = '\x0b' || c = '\x0c' || c = '\r'

/-- Go `strings.TrimSpace`. -/
def trimSpace (s : List Char) : List Char :=
  ((s.dropWhile isSpaceGo).reverse.dropWhile isSpaceGo).reverse

/-- Go `strings.Index s pat`: index of the first occurrence of `pat` in
`s`, `none` for -1. -/
def strIndex : List Char → List Char → Option Nat
  | [], pat => if pat.isPrefixOf ([] : List Char) then some 0 else none
  | s@(_ :: t), pat =>
    if pat.isPrefixOf s then some 0 else (strIndex t pat).map (· + 1)

/-- Go slice `s[lo:hi]`. -/
def slice (s : List Char) (lo hi : Nat) : List Char := (s.take hi).drop lo

/-- Go `strings.TrimRight(s, "\n\r")` as used on bash output. -/
def trimRightNL (s : List Char) : List Char :=
  (s.reverse.dropWhile (fun c => c = '\n' || c = '\r')).reverse

/-- `const open = "${"` from compile.go. -/
def openStr : List Char := ['$', '{']

/-- `const close = "}"` from compile.go. -/
def closeStr : List Char := ['}']

/-- `type repeatMode int` with its three constants. -/
inductive RepeatMode where
  | same
  | any
  | uniq
deriving DecidableEq, Repr

/-- `varAndPosition` from compile.go (the unused, never-assigned
`varInitContent` field is omitted). -/
structure VarPos where
  raw : List Char
  varName : List Char
  isNumber : Bool
  repeatMode : RepeatMode
  hasDefaultValue : Bool
  defaultValue : List Char
  required : Bool
  isMacro : Bool
  isFile : Bool
  isBash : Bool
  isShellQuote : Bool
  openPos : Nat
  closePos : Nat
  index : Nat
deriving DecidableEq, Repr

/-- `type Template struct` from template.go. -/
structure Template where
  template : List Char
  varPositions : List VarPos
  vars : List (List Char)
deriving DecidableEq, Repr

/-- Value mappings (`map[string]string`), as association lists with the
first binding of a key winning. -/
abbrev VarMap := List (List Char × List Char)

/-- Map lookup `vars[name]`. -/
def lookupVar : VarMap → List Char → Option (List Char)
  | [], _ => none
  | (k, val) :: rest, name => if k = name then some val else lookupVar rest name

/-- Lexicographic byte order on strings, as used by Go `sort.Strings`. -/
def lexLt : List Char → List Char → Bool
  | [], [] => false
  | [], _ :: _ => true
  | _ :: _, [] => false
  | a :: as, b :: bs =>
    if a.toNat < b.toNat then true
    else if b.toNat < a.toNat then false
    else lexLt as bs

/-- Insert a name into a sorted duplicate-free list, keeping it sorted
and duplicate-free. -/
def insertVar (x : List Char) : List (List Char) → List (List Char)
  | [] => [x]
  | y :: ys =>
    if x = y then y :: ys
    else if lexLt x y then x :: y :: ys
    else y :: insertVar x ys

/-- `getVars` from template.go: the sorted list of the distinct names
(the Go original sorts the keys of a set-valued map; collecting the
names in order and inserting into a sorted duplicate-free list yields
the same result). -/
def getVars (names : List (List Char)) : List (List Char) :=
  names.foldr insertVar []

/-- `isValidVarStart` from compile.go. -/
def isValidVarStart (c : Char) : Bool :=
  ('a' ≤ c && c ≤ 'z') || ('A' ≤ c && c ≤ 'Z') || c = '_' || c = '@'

/-- `isValidVarChar` from compile.go. -/
def isValidVarChar (c : Char) : Bool :=
  ('a' ≤ c && c ≤ 'z') || ('A' ≤ c && c ≤ 'Z') || ('0' ≤ c && c ≤ '9') || c = '_'

/-- Index loop of `findNextDollarVar`: `i` is the index of the head of
the remaining list within the full string. -/
def findNextDollarVarAux : List Char → Nat → Option Nat
  | [], _ => none
  | c :: rest, i =>
    if c = '$' then
      match rest with
      | [] => none
      | d :: _ =>
        if d = '{' then findNextDollarVarAux rest (i + 1)
        else if isValidVarStart d then some i
        else findNextDollarVarAux rest (i + 1)
    else findNextDollarVarAux rest (i + 1)

/-- `findNextDollarVar` from compile.go: position of the next `$name`
pattern (`none` for -1). -/
def findNextDollarVar (s : List Char) : Option Nat := findNextDollarVarAux s 0

/-- `extractDollarVarName` from compile.go: variable name and exclusive
end position of a `$name` pattern.  (The source's final separator
conditional returns `(s[start:i], i)` on both branches; the translation
keeps the single result.) -/
def extractDollarVarName (s : List Char) : List Char × Nat :=
  match s with
  | [] => ([], 0)
  | c :: rest =>
    if c ≠ '$' then ([], 0)
    else match rest with
      | [] => ([], 0)
      | d :: rest2 =>
        if !isValidVarStart d then ([], 0)
        else if d = '@' then
          -- macro case: skip the @, then consume name characters
          let n := (rest2.takeWhile isValidVarChar).length
          (slice s 1 (2 + n), 2 + n)
        else
          let n := (rest.takeWhile isValidVarChar).length
          (slice s 1 (1 + n), 1 + n)

/-- Character loop of `parseVariableNameAndRequired`: collect leading
alphanumeric/underscore characters, stop at `!` (setting the required
flag) or at any other character. -/
def pvnrLoop : List Char → List Char × Bool
  | [] => ([], false)
  | c :: rest =>
    if ('a' ≤ c && c ≤ 'z') || ('A' ≤ c && c ≤ 'Z') || ('0' ≤ c && c ≤ '9') || c = '_' then
      let (n, r) := pvnrLoop rest
      (c :: n, r)
    else if c = '!' then ([], true)
    else ([], false)

/-- `parseVariableNameAndRequired` from compile.go. -/
def parseVariableNameAndRequired (segment : List Char) : List Char × Bool :=
  pvnrLoop (trimSpace segment)

/-- The recognized directive markers checked by `extractDefaultValue`. -/
def isDirectiveTail (rest : List Char) : Bool :=
  rest = str "%d" || rest = str "+" || rest = str "*" ||
  rest = str "file" || rest = str "bash" || rest = str "shell_quote"

/-- Scan of `extractDefaultValue`: first index whose character is `:`
and whose entire tail is a recognized directive. -/
def edvScan : List Char → Option Nat
  | [] => none
  | c :: rest =>
    if c = ':' && isDirectiveTail rest then some 0
    else (edvScan rest).map (· + 1)

/-- `extractDefaultValue` from compile.go: split the remainder into the
default value and the directive part. -/
def extractDefaultValue (remainder : List Char) : List Char × List Char :=
  match edvScan remainder with
  | some i => (remainder.take i, remainder.drop i)
  | none => (remainder, [])

/-- Result record of `parseVariableDefinition` (its tuple of named
return values). -/
structure ParsedDef where
  name : List Char
  required : Bool
  hasDefault : Bool
  defaultVal : List Char
  isNumber : Bool
  repMode : RepeatMode
  isFile : Bool
  isBash : Bool
  isShellQuote : Bool
deriving DecidableEq, Repr

/-- The all-false / empty `ParsedDef`. -/
def ParsedDef.zero : ParsedDef :=
  ⟨[], false, false, [], false, RepeatMode.same, false, false, false⟩

/-- `parseVariableDefinition` from compile.go (the variant with the
file/bash/shell_quote directives).  The only error is the
"multiple directives not allowed" case. -/
def parseVariableDefinition (varName : List Char) : Except Unit ParsedDef :=
  -- special handling for the :bash and :file suffixes
  if (str ":bash").isSuffixOf varName then
    Except.ok { ParsedDef.zero with
      name := varName.take (varName.length - 5), isBash := true }
  else if (str ":file").isSuffixOf varName then
    Except.ok { ParsedDef.zero with
      name := varName.take (varName.length - 5), isFile := true }
  else
    -- step 1: the variable name is everything before the first ?: or :
    let (nameEnd, hasDefault) :=
      match strIndex varName (str "?:") with
      | some idx => (idx, true)
      | none =>
        match strIndex varName (str ":") with
        | some idx => (idx, false)
        | none => (varName.length, false)
    let (name, required) := parseVariableNameAndRequired (varName.take nameEnd)
    -- step 2: the rest of the string
    let remainder := varName.drop nameEnd
    let (defaultVal, remainder) :=
      if hasDefault then extractDefaultValue (remainder.drop 2)
      else (([] : List Char), remainder)
    -- step 3: remaining directives
    if remainder ≠ [] && (str ":").isPrefixOf remainder then
      let rem := remainder.drop 1
      if rem.contains ':' then Except.error ()
      else
        Except.ok { ParsedDef.zero with
          name := name, required := required,
          hasDefault := hasDefault, defaultVal := defaultVal,
          isNumber := rem = str "%d",
          repMode := if rem = str "+" then RepeatMode.uniq
            else if rem = str "*" then RepeatMode.any
            else RepeatMode.same,
          isShellQuote := rem = str "shell_quote" }
    else
      Except.ok { ParsedDef.zero with
        name := name, required := required,
        hasDefault := hasDefault, defaultVal := defaultVal }

/-- `parseVarName` from compile.go: build a descriptor (with zeroed
positions) from the inner text of a placeholder. -/
def parseVarName (varName : List Char) : VarPos :=
  if (str "@").isPrefixOf varName then
    -- macro: keep the @ prefix as part of the name
    { raw := varName, varName := trimSpace varName,
      isNumber := false, repeatMode := RepeatMode.same,
      hasDefaultValue := false, defaultValue := [],
      required := false, isMacro := true,
      isFile := false, isBash := false, isShellQuote := false,
      openPos := 0, closePos := 0, index := 0 }
  else
    match parseVariableDefinition varName with
    | Except.error _ =>
      -- invalid variables degrade to an empty name
      { raw := varName, varName := [],
        isNumber := false, repeatMode := RepeatMode.same,
        hasDefaultValue := false, defaultValue := [],
        required := false, isMacro := false,
        isFile := false, isBash := false, isShellQuote := false,
        openPos := 0, closePos := 0, index := 0 }
    | Except.ok r =>
      { raw := varName, varName := trimSpace r.name,
        isNumber := r.isNumber, repeatMode := r.repMode,
        hasDefaultValue := r.hasDefault, defaultValue := r.defaultVal,
        required := r.required, isMacro := false,
        isFile := r.isFile, isBash := r.isBash,
        isShellQuote := r.isShellQuote,
        openPos := 0, closePos := 0, index := 0 }

/-- The scan loop of `Compile`, with an explicit fuel argument so that
the definition is structurally recursive and computes by kernel
reduction.  Every iteration on a non-empty `s` consumes at least one
character, so `fuel = s.length` always suffices (see
`compileLoop_fuel`).  `s` is the remaining suffix, `i` the number of
characters already consumed, `index` the running sequence index. -/
def compileLoop : Nat → List Char → Nat → Nat → List VarPos
  | 0, _, _, _ => []
  | fuel + 1, s, i, index =>
    if s = [] then []
    else
      let braceOpenIdx := strIndex s openStr
      let dollarIdx := findNextDollarVar s
      let next : Option (Nat × Bool) :=
        match braceOpenIdx, dollarIdx with
        | some b, some d => if b < d then some (b, true) else some (d, false)
        | some b, none => some (b, true)
        | none, some d => some (d, false)
        | none, none => none
      match next with
      | none => []
      | some (nextIdx, isBracePattern) =>
        -- check for escaping
        if nextIdx > 0 && s.getD (nextIdx - 1) ' ' = '\\' then
          compileLoop fuel (s.drop (nextIdx + 1)) (i + nextIdx + 1) index
        else if isBracePattern then
          let openIdxEnd := nextIdx + openStr.length
          match strIndex (s.drop openIdxEnd) closeStr with
          | none =>
            compileLoop fuel (s.drop openIdxEnd) (i + openIdxEnd) index
          | some k =>
            let closeIdx := k + openIdxEnd
            let varName := trimSpace (slice s openIdxEnd closeIdx)
            let v := parseVarName varName
            if v.varName = [] then
              compileLoop fuel (s.drop (closeIdx + closeStr.length))
                (i + closeIdx + closeStr.length) index
            else
              { v with openPos := i + nextIdx, closePos := i + closeIdx,
                       index := index + 1 } ::
                compileLoop fuel (s.drop (closeIdx + closeStr.length))
                  (i + closeIdx + closeStr.length) (index + 1)
        else
          let (varName, varEnd) := extractDollarVarName (s.drop nextIdx)
          if varName = [] then
            compileLoop fuel (s.drop (nextIdx + 1)) (i + nextIdx + 1) index
          else
            let v := parseVarName varName
            if v.varName = [] then
              compileLoop fuel (s.drop (nextIdx + 1)) (i + nextIdx + 1) index
            else
              { v with openPos := i + nextIdx,
                       closePos := i + nextIdx + varEnd - 1,
                       index := index + 1 } ::
                compileLoop fuel (s.drop (nextIdx + varEnd))
                  (i + nextIdx + varEnd) (index + 1)

/-- The rewrite loop of `processEscapesAndAdjustPositions`: walking the
text left to right, a backslash immediately before a `$` is removed,
scanning resumes after the `$`, and every position strictly greater
than the index the `$` now occupies is shifted left by one (exactly the
source's `pos.open > i` adjustment after its `i--`). -/
def processEscapesLoop : List Char → Nat → List VarPos → List Char × List VarPos
  | [], _, ps => ([], ps)
  | '\\' :: '$' :: rest, i, ps =>
    let ps2 := ps.map (fun p =>
      { p with
        openPos := if p.openPos > i then p.openPos - 1 else p.openPos,
        closePos := if p.closePos > i then p.closePos - 1 else p.closePos })
    let (out, ps3) := processEscapesLoop rest (i + 1) ps2
    ('$' :: out, ps3)
  | c :: rest, i, ps =>
    let (out, ps2) := processEscapesLoop rest (i + 1) ps
    (c :: out, ps2)

/-- `processEscapesAndAdjustPositions` from compile.go. -/
def processEscapesAndAdjustPositions (template : List Char)
    (positions : List VarPos) : List Char × List VarPos :=
  processEscapesLoop template 0 positions

/-- `Compile` from compile.go. -/
def Compile (template : List Char) : Template :=
  let positions := compileLoop template.length template 0 0
  let pr := processEscapesAndAdjustPositions template positions
  { template := pr.1, varPositions := pr.2,
    vars := getVars (positions.map (fun p => p.varName)) }

/-- The external collaborators of the substitution engine: the
file-reading and shell-execution functions (`none` = the operation
failed) and the four clock-derived macro values of one call. -/
structure Env where
  readFile : List Char → Option (List Char)
  runBash : List Char → Option (List Char)
  timestamp : List Char
  timestampMs : List Char
  timestampUs : List Char
  timestampNs : List Char

/-- The error values produced inside `apply`: a failed `:file` read
(carrying the path), a failed `:bash` command (carrying the command),
and a missing required variable (carrying the raw placeholder text). -/
inductive ApplyError where
  | fileError (path : List Char)
  | bashError (cmd : List Char)
  | missingRequired (raw : List Char)
deriving DecidableEq, Repr

/-- Result of the public `Apply`/`PartialApply` methods: on an internal
error the Go source calls `panic(err)`; `fatal` models that
non-recoverable outcome. -/
inductive Outcome where
  | ok (t : Template)
  | fatal (e : ApplyError)
deriving DecidableEq, Repr

/-- The macro resolution block of `apply`: strip a leading `@` and
recognize the four timestamp macros. -/
def macroValue (env : Env) (name : List Char) : Option (List Char) :=
  let m := if (str "@").isPrefixOf name then name.drop 1 else name
  if m = str "timestamp" then some env.timestamp
  else if m = str "timestamp_ms" then some env.timestampMs
  else if m = str "timestamp_us" then some env.timestampUs
  else if m = str "timestamp_ns" then some env.timestampNs
  else none

/-- The value resolution chain at the head of `apply`'s loop body:
file read, bash execution (output right-trimmed of newlines), macro
lookup (only when `applyMacro`), else map lookup.  `some` = the Go
`ok` flag. -/
def resolveVal (env : Env) (v : VarMap) (applyMacro : Bool) (vr : VarPos) :
    Except ApplyError (Option (List Char)) :=
  if vr.isFile then
    match env.readFile vr.varName with
    | some data => Except.ok (some data)
    | none => Except.error (ApplyError.fileError vr.varName)
  else if vr.isBash then
    match env.runBash vr.varName with
    | some out => Except.ok (some (trimRightNL out))
    | none => Except.error (ApplyError.bashError vr.varName)
  else if vr.isMacro then
    Except.ok (if applyMacro then macroValue env vr.varName else none)
  else
    Except.ok (lookupVar v vr.varName)

/-- `quoteShellStr` from template.go. -/
def shellSpecials : List Char := str "\t \n;<>\\$\x7b\x7d()&!*"

/-- `strings.ReplaceAll(s, single-quote, quote backslash quote quote)`. -/
def escQuotes (s : List Char) : List Char :=
  s.flatMap (fun c =>
    if c = quoteChar then [quoteChar, '\\', quoteChar, quoteChar] else [c])

/-- `quoteShellStr` from template.go: empty string becomes two quotes,
strings containing special characters are single-quoted with embedded
quotes escaped, all other strings are returned bare. -/
def quoteShellStr (s : List Char) : List Char :=
  if s = [] then [quoteChar, quoteChar]
  else if s.any (fun c => shellSpecials.contains c) then
    [quoteChar] ++ escQuotes s ++ [quoteChar]
  else s

/-- `isDollarSyntax` from template.go. -/
def isDollarSyntax (s : List Char) (pos : Nat) : Bool :=
  pos < s.length && s.getD pos ' ' = '$' &&
    (decide (pos + 1 ≥ s.length) || s.getD (pos + 1) ' ' ≠ '{')

/-- `getVarEndPos` from template.go. -/
def getVarEndPos (s : List Char) (vr : VarPos) : Nat :=
  if isDollarSyntax s vr.openPos then vr.closePos + 1
  else vr.closePos + closeStr.length

/-- `isChar` from template.go; the index is an `Int` because the source
calls it with the possibly negative `vr.open-1`. -/
def isCharI (s : List Char) (idx : Int) (ch : Char) : Bool :=
  decide (0 ≤ idx) && decide (idx < (s.length : Int)) && s.getD idx.toNat ' ' = ch

/-- The mutable state of `apply`'s loop: the output builder `b`, the
copy cursor `oldIdx`, and the accumulated missing descriptors and their
names. -/
structure LoopSt where
  b : List Char
  oldIdx : Nat
  missing : List VarPos
  missingNames : List (List Char)
deriving DecidableEq, Repr

/-- The tail of `apply`'s loop body once a value has been found (from
the map, a side effect, a macro, or the default): apply shell quoting,
then write the value, stripping the surrounding double quotes in the
numeric case. -/
def applyResolved (s : List Char) (prev : Option VarPos) (vr : VarPos)
    (st : LoopSt) (val0 : List Char) : LoopSt :=
  let varEndPos := getVarEndPos s vr
  let val :=
    if val0 ≠ [] && !vr.isBash && !vr.isFile && vr.isShellQuote then
      quoteShellStr val0
    else val0
  let prevOk :=
    match prev with
    | none => true
    | some p =>
      !p.isNumber || decide ((vr.openPos : Int) - 1 > (getVarEndPos s p : Int))
  if vr.isNumber && isCharI s ((vr.openPos : Int) - 1) '"' &&
      isCharI s (varEndPos : Int) '"' && prevOk then
    { st with b := st.b ++ slice s st.oldIdx (vr.openPos - 1) ++ val,
              oldIdx := varEndPos + 1 }
  else
    { st with b := st.b ++ slice s st.oldIdx vr.openPos ++ val,
              oldIdx := varEndPos }

/-- One iteration of `apply`'s loop over the descriptors. -/
def applyStep (env : Env) (v : VarMap)
    (validateRequired applyDefault applyMacro : Bool) (s : List Char)
    (prev : Option VarPos) (vr : VarPos) (st : LoopSt) :
    Except ApplyError LoopSt :=
  match resolveVal env v applyMacro vr with
  | Except.error e => Except.error e
  | Except.ok (some val0) => Except.ok (applyResolved s prev vr st val0)
  | Except.ok none =>
    if applyDefault && !vr.isMacro && vr.hasDefaultValue then
      Except.ok (applyResolved s prev vr st vr.defaultValue)
    else if validateRequired && vr.required then
      Except.error (ApplyError.missingRequired vr.raw)
    else
      let varEndPos := getVarEndPos s vr
      let cp := { vr with
        openPos := st.b.length + vr.openPos - st.oldIdx,
        closePos := st.b.length + vr.closePos - st.oldIdx }
      Except.ok
        { b := st.b ++ slice s st.oldIdx varEndPos, oldIdx := varEndPos,
          missing := st.missing ++ [cp],
          missingNames := st.missingNames ++ [vr.varName] }

/-- `apply`'s loop over the descriptor list; `prev` is the previous
descriptor of the original list (`c.varPositions[j-1]`). -/
def applyLoop (env : Env) (v : VarMap)
    (validateRequired applyDefault applyMacro : Bool) (s : List Char) :
    List VarPos → Option VarPos → LoopSt → Except ApplyError LoopSt
  | [], _, st => Except.ok st
  | vr :: rest, prev, st =>
    match applyStep env v validateRequired applyDefault applyMacro s prev vr st with
    | Except.error e => Except.error e
    | Except.ok st2 =>
      applyLoop env v validateRequired applyDefault applyMacro s rest (some vr) st2

/-- `(*Template).apply` from template.go. -/
def Template.apply (c : Template) (v : VarMap)
    (validateRequired applyDefault applyMacro : Bool) (env : Env) :
    Except ApplyError Template :=
  if c.vars = [] && !applyDefault && !applyMacro then Except.ok c
  else
    match applyLoop env v validateRequired applyDefault applyMacro
        c.template c.varPositions none ⟨[], 0, [], []⟩ with
    | Except.error e => Except.error e
    | Except.ok st =>
      Except.ok
        { template := st.b ++ c.template.drop st.oldIdx,
          varPositions := st.missing, vars := getVars st.missingNames }

/-- `(*Template).PartialApply` from template.go: empty mappings return
the template itself, and an error from `apply` becomes a panic. -/
def Template.PartialApply (c : Template) (vars : VarMap) (env : Env) : Outcome :=
  if vars.length = 0 then Outcome.ok c
  else
    match c.apply vars false false false env with
    | Except.ok t => Outcome.ok t
    | Except.error e => Outcome.fatal e

/-- `ApplyOptions` from template.go. -/
structure ApplyOptions where
  ApplyDefault : Bool
  ApplyMacro : Bool
  ValidateRequired : Bool
deriving DecidableEq, Repr

/-- `(*Template).Apply` from template.go: an error from `apply` becomes
a panic. -/
def Template.Apply (c : Template) (vars : VarMap) (opts : ApplyOptions)
    (env : Env) : Outcome :=
  if vars.length = 0 && !opts.ApplyDefault && !opts.ApplyMacro then Outcome.ok c
  else
    match c.apply vars opts.ValidateRequired opts.ApplyDefault opts.ApplyMacro env with
    | Except.ok t => Outcome.ok t
    | Except.error e => Outcome.fatal e

/-- `(*Template).Execute` from template.go. -/
def Template.Execute (c : Template) (vars : VarMap) (env : Env) :
    Except ApplyError (List Char) :=
  match c.apply vars true true true env with
  | Except.error e => Except.error e
  | Except.ok t => Except.ok t.template

/-- An environment whose file and bash collaborators always fail. -/
def env0 : Env :=
  { readFile := fun _ => none, runBash := fun _ => none,
    timestamp := str "1000", timestampMs := str "1000000",
    timestampUs := str "1000000000", timestampNs := str "1000000000000" }

/-- An environment whose bash collaborator always succeeds, producing
a fixed output with a trailing newline. -/
def envB : Env :=
  { readFile := fun _ => none, runBash := fun _ => some (str "OUT\n"),
    timestamp := str "1", timestampMs := str "2",
    timestampUs := str "3", timestampNs := str "4" }

/-- `t.PartialApply(v1).PartialApply(v2)`, propagating a first-stage
panic. -/
def partialApplyTwice (t : Template) (v1 v2 : VarMap) (env : Env) : Outcome :=
  match t.PartialApply v1 env with
  | Outcome.ok t1 => t1.PartialApply v2 env
  | o => o

/-- The character class kept by `parseVariableNameAndRequired`
(letters, digits, underscore). -/
def isAlnumU (c : Char) : Bool :=
  ('a' ≤ c && c ≤ 'z') || ('A' ≤ c && c ≤ 'Z') || ('0' ≤ c && c ≤ '9') || c = '_'

/-- `s` contains no backslash immediately followed by a `$` (so the
escape-normalization pass of `Compile` leaves it unchanged). -/
def escPairFree (s : List Char) : Prop :=
  ∀ j, j < s.length →
    ¬(s.getD j ' ' = '\\' ∧ s.getD (j + 1) ' ' = '$')

instance (s : List Char) : Decidable (escPairFree s) := by
  unfold escPairFree
  infer_instance

/-- The condition under which `Execute`'s walk fails at a descriptor:
a failing file read, a failing bash command, or a required descriptor
that resolves neither via macro/mapping lookup nor via a default. -/
def execErrCond (env : Env) (v : VarMap) (vr : VarPos) : Bool :=
  if vr.isFile then (env.readFile vr.varName).isNone
  else if vr.isBash then (env.runBash vr.varName).isNone
  else if vr.isMacro then (macroValue env vr.varName).isNone && vr.required
  else (lookupVar v vr.varName).isNone && !vr.hasDefaultValue && vr.required

/-- Validity of one descriptor's offsets relative to the owning
template's text: the open offset is strictly before the close offset,
the close offset is inside the text, the open offset indexes the
placeholder's `$`, and the close offset never indexes a backslash
(it indexes a close brace or a name character). -/
def okPos (text : List Char) (vr : VarPos) : Prop :=
  vr.openPos < vr.closePos ∧ vr.closePos < text.length ∧
    text.getD vr.openPos ' ' = '$' ∧ text.getD vr.closePos ' ' ≠ '\\'

instance (text : List Char) (vr : VarPos) : Decidable (okPos text vr) := by
  unfold okPos
  infer_instance

/-- Validity of a descriptor list relative to a text: every descriptor
is valid and consecutive descriptors are ordered with the next opening
strictly after the previous close. -/
def okPositions (text : List Char) (l : List VarPos) : Prop :=
  (∀ vr ∈ l, okPos text vr) ∧
    List.Chain' (fun a b => a.closePos + 1 ≤ b.openPos) l

/-- The templates produced by the library: built by `Compile`, or
derived from a reachable template by a successful `PartialApply` or
`Apply`. -/
inductive Reach : Template → Prop where
  | compile (s : List Char) : Reach (Compile s)
  | stepPartial (t : Template) (v : VarMap) (env : Env) (t2 : Template) :
      Reach t → t.PartialApply v env = Outcome.ok t2 → Reach t2
  | stepApply (t : Template) (v : VarMap) (opts : ApplyOptions) (env : Env)
      (t2 : Template) :
      Reach t → t.Apply v opts env = Outcome.ok t2 → Reach t2

/-- Shift a descriptor's offsets right by `k` (the scan records offsets
relative to the full input; scanning a suffix shifts them). -/
def shiftPos (k : Nat) (p : VarPos) : VarPos :=
  { p with openPos := p.openPos + k, closePos := p.closePos + k }

/-- Replace a descriptor's repeat mode (used to state that substitution
never reads it). -/
def VarPos.withRep (f : RepeatMode → RepeatMode) (vr : VarPos) : VarPos :=
  { vr with repeatMode := f vr.repeatMode }

/-- Replace every descriptor's repeat mode of a template. -/
def Template.withRep (f : RepeatMode → RepeatMode) (c : Template) : Template :=
  { c with varPositions := c.varPositions.map (VarPos.withRep f) }

/-- Replace every missing descriptor's repeat mode of a loop state. -/
def LoopSt.withRep (f : RepeatMode → RepeatMode) (st : LoopSt) : LoopSt :=
  { st with missing := st.missing.map (VarPos.withRep f) }

/-- The loop state of the merged single pass, expressed from the state of
the second pass (`st2`) walking the first pass's output text `b1` with the
first pass's cursor `o1` into the original text. -/
def seqSt (st2 : LoopSt) (b1 : List Char) (o1 : Nat) : LoopSt :=
  { b := st2.b ++ b1.drop st2.oldIdx, oldIdx := o1,
    missing := st2.missing, missingNames := st2.missingNames }

instance (text : List Char) (l : List VarPos) : Decidable (okPositions text l) := by
  unfold okPositions
  infer_instance
/-!  ### Theorems  -/

theorem withRep_openPos (f : RepeatMode → RepeatMode) (vr : VarPos) :
    (vr.withRep f).openPos = vr.openPos := rfl

theorem withRep_closePos (f : RepeatMode → RepeatMode) (vr : VarPos) :
    (vr.withRep f).closePos = vr.closePos := rfl

theorem withRep_isNumber (f : RepeatMode → RepeatMode) (vr : VarPos) :
    (vr.withRep f).isNumber = vr.isNumber := rfl

theorem withRep_isBash (f : RepeatMode → RepeatMode) (vr : VarPos) :
    (vr.withRep f).isBash = vr.isBash := rfl

theorem withRep_isFile (f : RepeatMode → RepeatMode) (vr : VarPos) :
    (vr.withRep f).isFile = vr.isFile := rfl

theorem withRep_isShellQuote (f : RepeatMode → RepeatMode) (vr : VarPos) :
    (vr.withRep f).isShellQuote = vr.isShellQuote := rfl

theorem withRep_isMacro (f : RepeatMode → RepeatMode) (vr : VarPos) :
    (vr.withRep f).isMacro = vr.isMacro := rfl

theorem withRep_required (f : RepeatMode → RepeatMode) (vr : VarPos) :
    (vr.withRep f).required = vr.required := rfl

theorem withRep_hasDefaultValue (f : RepeatMode → RepeatMode) (vr : VarPos) :
    (vr.withRep f).hasDefaultValue = vr.hasDefaultValue := rfl

theorem withRep_defaultValue (f : RepeatMode → RepeatMode) (vr : VarPos) :
    (vr.withRep f).defaultValue = vr.defaultValue := rfl

theorem withRep_varName (f : RepeatMode → RepeatMode) (vr : VarPos) :
    (vr.withRep f).varName = vr.varName := rfl

theorem withRep_raw (f : RepeatMode → RepeatMode) (vr : VarPos) :
    (vr.withRep f).raw = vr.raw := rfl

theorem withRep_repeatMode (f : RepeatMode → RepeatMode) (vr : VarPos) :
    (vr.withRep f).repeatMode = f vr.repeatMode := rfl

theorem withRep_index (f : RepeatMode → RepeatMode) (vr : VarPos) :
    (vr.withRep f).index = vr.index := rfl

theorem resolveVal_withRep (env : Env) (v : VarMap) (aM : Bool)
    (f : RepeatMode → RepeatMode) (vr : VarPos) :
    resolveVal env v aM (vr.withRep f) = resolveVal env v aM vr := rfl

theorem getVarEndPos_withRep (s : List Char) (f : RepeatMode → RepeatMode)
    (vr : VarPos) : getVarEndPos s (vr.withRep f) = getVarEndPos s vr := rfl

theorem applyResolved_withRep (s : List Char) (prev : Option VarPos)
    (vr : VarPos) (st : LoopSt) (val0 : List Char)
    (f : RepeatMode → RepeatMode) :
    applyResolved s (prev.map (VarPos.withRep f)) (vr.withRep f)
        (st.withRep f) val0
      = (applyResolved s prev vr st val0).withRep f := by
  cases prev <;>
    simp only [applyResolved, Option.map, getVarEndPos_withRep,
      withRep_openPos, withRep_closePos, withRep_isNumber, withRep_isBash,
      withRep_isFile, withRep_isShellQuote] <;>
    split_ifs <;>
    simp [LoopSt.withRep]

theorem applyStep_withRep (env : Env) (v : VarMap)
    (vR aD aM : Bool) (s : List Char) (prev : Option VarPos) (vr : VarPos)
    (st : LoopSt) (f : RepeatMode → RepeatMode) :
    applyStep env v vR aD aM s (prev.map (VarPos.withRep f)) (vr.withRep f)
        (st.withRep f)
      = (applyStep env v vR aD aM s prev vr st).map (LoopSt.withRep f) := by
  unfold applyStep
  rw [resolveVal_withRep]
  cases hres : resolveVal env v aM vr with
  | error e => rfl
  | ok valOpt =>
    cases valOpt with
    | some val0 =>
      show Except.ok
          (applyResolved s (prev.map (VarPos.withRep f)) (vr.withRep f)
            (st.withRep f) val0) = _
      rw [applyResolved_withRep]
      rfl
    | none =>
      simp only [withRep_isMacro, withRep_hasDefaultValue, withRep_required,
        withRep_raw, withRep_varName, withRep_openPos, withRep_closePos,
        withRep_defaultValue, withRep_isNumber, withRep_isBash,
        withRep_isFile, withRep_isShellQuote, withRep_repeatMode,
        withRep_index, getVarEndPos_withRep, applyResolved_withRep]
      split_ifs <;>
        simp [Except.map, LoopSt.withRep, VarPos.withRep]

theorem applyLoop_withRep (env : Env) (v : VarMap) (vR aD aM : Bool)
    (s : List Char) (l : List VarPos) (prev : Option VarPos) (st : LoopSt)
    (f : RepeatMode → RepeatMode) :
    applyLoop env v vR aD aM s (l.map (VarPos.withRep f))
        (prev.map (VarPos.withRep f)) (st.withRep f)
      = (applyLoop env v vR aD aM s l prev st).map (LoopSt.withRep f) := by
  induction l generalizing prev st with
  | nil => rfl
  | cons vr rest ih =>
    simp only [List.map_cons, applyLoop]
    rw [applyStep_withRep]
    cases applyStep env v vR aD aM s prev vr st with
    | error e => rfl
    | ok st2 =>
      simp only [Except.map]
      have := ih (some vr) st2
      simpa using this

theorem apply_withRep (f : RepeatMode → RepeatMode) (c : Template)
    (v : VarMap) (vR aD aM : Bool) (env : Env) :
    Template.apply (c.withRep f) v vR aD aM env
      = Except.map (Template.withRep f) (Template.apply c v vR aD aM env) := by
  unfold Template.apply
  have hvars : (c.withRep f).vars = c.vars := rfl
  have htmpl : (c.withRep f).template = c.template := rfl
  have hpos : (c.withRep f).varPositions
      = c.varPositions.map (VarPos.withRep f) := rfl
  rw [hvars, htmpl, hpos]
  split_ifs with hg
  · rfl
  · have key2 : applyLoop env v vR aD aM c.template
        (c.varPositions.map (VarPos.withRep f)) none ⟨[], 0, [], []⟩
          = (applyLoop env v vR aD aM c.template c.varPositions none
              ⟨[], 0, [], []⟩).map (LoopSt.withRep f) :=
      applyLoop_withRep env v vR aD aM c.template c.varPositions none
        ⟨[], 0, [], []⟩ f
    rw [key2]
    cases applyLoop env v vR aD aM c.template c.varPositions none
        ⟨[], 0, [], []⟩ with
    | error e => rfl
    | ok st => rfl

/-- C10: the repeat-mode directives `:+` and `:*` are parsed and stored
on the descriptor, but substitution is completely independent of
repeat modes: rewriting every descriptor's repeat mode commutes with
`apply` (so output text, error behavior, and the residual template up
to repeat modes are unchanged), and `Execute`'s result is literally
unchanged. -/
theorem claim_C10 :
    (parseVarName (str "a:+")).repeatMode = RepeatMode.uniq ∧
    (parseVarName (str "a:*")).repeatMode = RepeatMode.any ∧
    (∀ (f : RepeatMode → RepeatMode) (c : Template) (v : VarMap)
        (vR aD aM : Bool) (env : Env),
        Template.apply (c.withRep f) v vR aD aM env
          = Except.map (Template.withRep f) (Template.apply c v vR aD aM env)) ∧
    (∀ (f : RepeatMode → RepeatMode) (c : Template) (v : VarMap) (env : Env),
        Template.Execute (c.withRep f) v env = Template.Execute c v env) := by
  refine ⟨rfl, rfl, apply_withRep, ?_⟩
  intro f c v env
  unfold Template.Execute
  rw [apply_withRep]
  cases Template.apply c v true true true env with
  | error e => rfl
  | ok t => rfl

/-- C1 (amended): `Execute` surfaces substitution errors (missing
required variables and side-effect failures) as recoverable error
values, while `Apply` converts any such error into a fatal panic
whenever it substitutes at all (i.e. when the mapping is non-empty or a
toggle forces substitution). -/
theorem claim_C1_amended :
    (∀ (c : Template) (v : VarMap) (env : Env) (e : ApplyError),
        Template.apply c v true true true env = Except.error e →
        c.Execute v env = Except.error e) ∧
    (∀ (c : Template) (v : VarMap) (opts : ApplyOptions) (env : Env)
        (e : ApplyError), v ≠ [] →
        Template.apply c v opts.ValidateRequired opts.ApplyDefault
            opts.ApplyMacro env = Except.error e →
        c.Apply v opts env = Outcome.fatal e) := by
  constructor
  · intro c v env e h
    unfold Template.Execute
    rw [h]
  · intro c v opts env e hv h
    simp [Template.Apply, h]
    intro hveq
    exact absurd hveq hv

/-- C1, witness. -/
theorem claim_C1_witness :
    (Compile (str "Hi $\x7bw!\x7d")).Execute [] env0
      = Except.error (ApplyError.missingRequired (str "w!")) :=
  claim_C1_amended.1 (Compile (str "Hi $\x7bw!\x7d")) [] env0
    (ApplyError.missingRequired (str "w!")) rfl

theorem resolveVal_error_shape (env : Env) (v : VarMap) (aM : Bool)
    (vr : VarPos) (e : ApplyError)
    (h : resolveVal env v aM vr = Except.error e) :
    (∃ p, e = ApplyError.fileError p) ∨ (∃ cmd, e = ApplyError.bashError cmd) := by
  unfold resolveVal at h
  split_ifs at h
  all_goals first
    | exact Except.noConfusion h
    | (cases hx : env.readFile vr.varName with
       | some d => rw [hx] at h; exact Except.noConfusion h
       | none =>
         rw [hx] at h
         injection h with h2
         exact Or.inl ⟨vr.varName, h2.symm⟩)
    | (cases hx : env.runBash vr.varName with
       | some d => rw [hx] at h; exact Except.noConfusion h
       | none =>
         rw [hx] at h
         injection h with h2
         exact Or.inr ⟨vr.varName, h2.symm⟩)

theorem applyStep_noValidate_error (env : Env) (v : VarMap) (aD aM : Bool)
    (s : List Char) (prev : Option VarPos) (vr : VarPos) (st : LoopSt)
    (e : ApplyError)
    (h : applyStep env v false aD aM s prev vr st = Except.error e) :
    (∃ p, e = ApplyError.fileError p) ∨ (∃ cmd, e = ApplyError.bashError cmd) := by
  unfold applyStep at h
  cases hres : resolveVal env v aM vr with
  | error e2 =>
    simp only [hres] at h
    injection h with h2
    subst h2
    exact resolveVal_error_shape env v aM vr _ hres
  | ok valOpt =>
    cases valOpt with
    | some val0 =>
      simp only [hres] at h
      exact Except.noConfusion h
    | none =>
      simp only [hres, Bool.false_and, Bool.false_eq_true, if_false] at h
      split_ifs at h

theorem applyLoop_noValidate_error (env : Env) (v : VarMap) (aD aM : Bool)
    (s : List Char) (l : List VarPos) (prev : Option VarPos) (st : LoopSt)
    (e : ApplyError)
    (h : applyLoop env v false aD aM s l prev st = Except.error e) :
    (∃ p, e = ApplyError.fileError p) ∨ (∃ cmd, e = ApplyError.bashError cmd) := by
  induction l generalizing prev st with
  | nil => exact Except.noConfusion h
  | cons vr rest ih =>
    unfold applyLoop at h
    cases hs : applyStep env v false aD aM s prev vr st with
    | error e2 =>
      simp only [hs] at h
      injection h with h2
      subst h2
      exact applyStep_noValidate_error env v aD aM s prev vr st _ hs
    | ok st2 =>
      simp only [hs] at h
      exact ih (some vr) st2 h

theorem applyStep_noFB_ok (env : Env) (v : VarMap) (aD aM : Bool)
    (s : List Char) (prev : Option VarPos) (vr : VarPos) (st : LoopSt)
    (hf : vr.isFile = false) (hb : vr.isBash = false) :
    ∃ st2, applyStep env v false aD aM s prev vr st = Except.ok st2 := by
  unfold applyStep
  cases hres : resolveVal env v aM vr with
  | error e2 =>
    exfalso
    unfold resolveVal at hres
    rw [hf, hb] at hres
    simp only [Bool.false_eq_true, if_false] at hres
    split_ifs at hres
  | ok valOpt =>
    cases valOpt with
    | some val0 =>
      simp only [hres]
      exact ⟨_, rfl⟩
    | none =>
      simp only [hres, Bool.false_and, Bool.false_eq_true, if_false]
      split_ifs <;> exact ⟨_, rfl⟩

theorem applyLoop_noFB_ok (env : Env) (v : VarMap) (aD aM : Bool)
    (s : List Char) (l : List VarPos) (prev : Option VarPos) (st : LoopSt)
    (hl : ∀ vr ∈ l, vr.isFile = false ∧ vr.isBash = false) :
    ∃ st2, applyLoop env v false aD aM s l prev st = Except.ok st2 := by
  induction l generalizing prev st with
  | nil => exact ⟨st, rfl⟩
  | cons vr rest ih =>
    obtain ⟨hf, hb⟩ := hl vr (List.mem_cons_self vr rest)
    obtain ⟨st2, hs⟩ := applyStep_noFB_ok env v aD aM s prev vr st hf hb
    obtain ⟨st3, hrest⟩ := ih (some vr) st2
      (fun x hx => hl x (List.mem_cons_of_mem _ hx))
    exact ⟨st3, by unfold applyLoop; rw [hs]; exact hrest⟩

/-- C2 (amended): `PartialApply` never validates required-ness, never
applies defaults, and ignores macros — its only possible failures are
file/bash side-effect failures, which it raises as a panic; in
particular on templates without file/bash descriptors it always
succeeds.  But it does execute `:file`/`:bash` directives (see the
counterexample), contrary to the claim. -/
theorem claim_C2_amended :
    (∀ (c : Template) (v : VarMap) (env : Env) (e : ApplyError),
        c.PartialApply v env = Outcome.fatal e →
        (∃ p, e = ApplyError.fileError p) ∨
          (∃ cmd, e = ApplyError.bashError cmd)) ∧
    (∀ (c : Template) (v : VarMap) (env : Env),
        (∀ vr ∈ c.varPositions, vr.isFile = false ∧ vr.isBash = false) →
        ∃ t2, c.PartialApply v env = Outcome.ok t2) := by
  constructor
  · intro c v env e h
    unfold Template.PartialApply at h
    split_ifs at h
    unfold Template.apply at h
    split_ifs at h
    cases hlp : applyLoop env v false false false c.template
        c.varPositions none ⟨[], 0, [], []⟩ with
    | error e2 =>
      simp only [hlp] at h
      injection h with h2
      subst h2
      exact applyLoop_noValidate_error env v false false c.template
        c.varPositions none ⟨[], 0, [], []⟩ _ hlp
    | ok st =>
      simp only [hlp] at h
      exact Outcome.noConfusion h
  · intro c v env hl
    unfold Template.PartialApply
    split_ifs
    · exact ⟨c, rfl⟩
    · unfold Template.apply
      split_ifs
      · exact ⟨c, rfl⟩
      · obtain ⟨st2, hlp⟩ := applyLoop_noFB_ok env v false false c.template
          c.varPositions none ⟨[], 0, [], []⟩ hl
        rw [hlp]
        exact ⟨_, rfl⟩

/-- C2, witness. -/
theorem claim_C2_witness :
    ∃ t2, (Compile (str "a $\x7bq\x7d b")).PartialApply
        [(str "x", str "y")] env0 = Outcome.ok t2 :=
  claim_C2_amended.2 (Compile (str "a $\x7bq\x7d b")) [(str "x", str "y")]
    env0 (by decide)

theorem exec_no_positions (t : Template) (v : VarMap) (env : Env)
    (h : t.varPositions = []) : t.Execute v env = Except.ok t.template := by
  unfold Template.Execute Template.apply
  rw [h]
  split_ifs <;> rfl

theorem processEscapesLoop_pairFree (s : List Char) :
    ∀ (i : Nat) (ps : List VarPos), escPairFree s →
      processEscapesLoop s i ps = (s, ps) := by
  induction s with
  | nil => intro i ps _; rfl
  | cons c rest ih =>
    intro i ps hfree
    have hnodel : ∀ (rest2 : List Char), c = '\\' → rest = '$' :: rest2 → False := by
      intro rest2 hc hr
      apply hfree 0 (by simp)
      refine ⟨by simpa using hc, ?_⟩
      simp [hr]
    rw [processEscapesLoop.eq_3 i ps c rest hnodel]
    rw [ih (i + 1) ps ?_]
    · intro j hj
      have := hfree (j + 1) (by simpa using Nat.succ_lt_succ hj)
      simpa using this

/-- C6 (amended): when compilation finds no placeholder occurrence and
the input contains no `\$` escape sequence, Execute returns the
original input unchanged for every mapping.  (With a `\$` sequence the
escape-normalization pass removes the backslash even though no
placeholder exists — see the counterexample.) -/
theorem claim_C6_amended :
    ∀ (s : List Char) (v : VarMap) (env : Env),
      (Compile s).varPositions = [] → escPairFree s →
      (Compile s).Execute v env = Except.ok s := by
  intro s v env hpos hfree
  have hid := processEscapesLoop_pairFree s 0 (compileLoop s.length s 0 0) hfree
  have htempl : (Compile s).template = s := by
    show (processEscapesAndAdjustPositions s (compileLoop s.length s 0 0)).1 = s
    rw [processEscapesAndAdjustPositions, hid]
  rw [exec_no_positions _ v env hpos, htempl]

/-- C6, witness. -/
theorem claim_C6_witness :
    (Compile (str "plain text")).Execute [(str "k", str "v")] env0
      = Except.ok (str "plain text") :=
  claim_C6_amended (str "plain text") [(str "k", str "v")] env0 rfl
    (by decide)

theorem applyStep_exec_error_iff (env : Env) (v : VarMap) (s : List Char)
    (prev : Option VarPos) (vr : VarPos) (st : LoopSt) :
    (∃ e, applyStep env v true true true s prev vr st = Except.error e)
      ↔ execErrCond env v vr = true := by
  unfold applyStep resolveVal execErrCond
  by_cases hf : vr.isFile = true
  · simp only [hf, if_true]
    cases hx : env.readFile vr.varName <;> simp [hx]
  · simp only [hf, if_false]
    by_cases hb : vr.isBash = true
    · simp only [hb, if_true]
      cases hx : env.runBash vr.varName <;> simp [hx]
    · simp only [hb, if_false]
      by_cases hm : vr.isMacro = true
      · simp only [hm, if_true]
        cases hmv : macroValue env vr.varName with
        | some val => simp [hmv]
        | none =>
          simp only [hmv, Option.isNone_none, Bool.true_and]
          cases hr : vr.required <;>
            simp [hm, hr]
      · simp only [hm, if_false]
        cases hlk : lookupVar v vr.varName with
        | some val => simp [hlk]
        | none =>
          simp only [hlk, Option.isNone_none, Bool.true_and]
          by_cases hd : vr.hasDefaultValue = true
          · simp [hm, hd]
          · have hd2 : vr.hasDefaultValue = false := by
              cases hdd : vr.hasDefaultValue
              · rfl
              · exact absurd hdd hd
            cases hr : vr.required <;>
              simp [hm, hd2, hr]

theorem applyLoop_exec_error_iff (env : Env) (v : VarMap) (s : List Char) :
    ∀ (l : List VarPos) (prev : Option VarPos) (st : LoopSt),
      (∃ e, applyLoop env v true true true s l prev st = Except.error e)
        ↔ ∃ vr ∈ l, execErrCond env v vr = true := by
  intro l
  induction l with
  | nil => intro prev st; simp [applyLoop]
  | cons vr rest ih =>
    intro prev st
    unfold applyLoop
    cases hs : applyStep env v true true true s prev vr st with
    | error e =>
      simp only [hs]
      constructor
      · intro _
        exact ⟨vr, List.mem_cons_self _ _,
          (applyStep_exec_error_iff env v s prev vr st).mp ⟨e, hs⟩⟩
      · intro _
        exact ⟨e, rfl⟩
    | ok st2 =>
      simp only [hs]
      rw [ih (some vr) st2]
      have hcond : ¬ execErrCond env v vr = true := by
        intro hc
        obtain ⟨e, he⟩ := (applyStep_exec_error_iff env v s prev vr st).mpr hc
        rw [hs] at he
        exact Except.noConfusion he
      constructor
      · rintro ⟨vr2, hmem, hc⟩
        exact ⟨vr2, List.mem_cons_of_mem _ hmem, hc⟩
      · rintro ⟨vr2, hmem, hc⟩
        rcases List.mem_cons.mp hmem with rfl | hmem2
        · exact absurd hc hcond
        · exact ⟨vr2, hmem2, hc⟩

theorem applyStep_missing_shape (env : Env) (v : VarMap)
    (vR aD aM : Bool) (s : List Char) (prev : Option VarPos) (vr : VarPos)
    (st : LoopSt) (r : List Char)
    (h : applyStep env v vR aD aM s prev vr st
      = Except.error (ApplyError.missingRequired r)) :
    vr.raw = r ∧ vr.required = true := by
  unfold applyStep at h
  cases hres : resolveVal env v aM vr with
  | error e2 =>
    simp only [hres] at h
    injection h with h2
    rcases resolveVal_error_shape env v aM vr e2 hres with ⟨p, hp⟩ | ⟨cmd, hc⟩
    · rw [hp] at h2; exact ApplyError.noConfusion h2
    · rw [hc] at h2; exact ApplyError.noConfusion h2
  | ok valOpt =>
    cases valOpt with
    | some val0 =>
      simp only [hres] at h
      exact Except.noConfusion h
    | none =>
      simp only [hres] at h
      split_ifs at h with h1 h2
      injection h with h3
      injection h3 with h4
      refine ⟨h4, ?_⟩
      exact (Bool.and_eq_true _ _).mp h2 |>.2

theorem applyLoop_missing_shape (env : Env) (v : VarMap)
    (vR aD aM : Bool) (s : List Char) :
    ∀ (l : List VarPos) (prev : Option VarPos) (st : LoopSt) (r : List Char),
      applyLoop env v vR aD aM s l prev st
          = Except.error (ApplyError.missingRequired r) →
      ∃ vr ∈ l, vr.raw = r ∧ vr.required = true := by
  intro l
  induction l with
  | nil =>
    intro prev st r h
    exact Except.noConfusion h
  | cons vr rest ih =>
    intro prev st r h
    unfold applyLoop at h
    cases hs : applyStep env v vR aD aM s prev vr st with
    | error e2 =>
      simp only [hs] at h
      injection h with h2
      subst h2
      exact ⟨vr, List.mem_cons_self _ _,
        applyStep_missing_shape env v vR aD aM s prev vr st r hs⟩
    | ok st2 =>
      simp only [hs] at h
      obtain ⟨vr2, hmem, hp⟩ := ih (some vr) st2 r h
      exact ⟨vr2, List.mem_cons_of_mem _ hmem, hp⟩

theorem exec_error_iff (c : Template) (v : VarMap) (env : Env) :
    (∃ e, c.Execute v env = Except.error e) ↔
      ∃ vr ∈ c.varPositions, execErrCond env v vr = true := by
  unfold Template.Execute Template.apply
  simp only [Bool.not_true, Bool.and_false, Bool.false_eq_true, if_false]
  rw [← applyLoop_exec_error_iff env v c.template c.varPositions none
    ⟨[], 0, [], []⟩]
  cases applyLoop env v true true true c.template c.varPositions none
      ⟨[], 0, [], []⟩ with
  | error e => simp
  | ok st => simp

/-- C8 (amended): Execute fails exactly when some file/bash side effect
fails or some required descriptor resolves neither via macro/mapping
lookup nor via a default; the missing-required error carries the raw
placeholder text; and the Hello example behaves as stated. -/
theorem claim_C8_amended :
    (∀ (c : Template) (v : VarMap) (env : Env),
        (∃ e, c.Execute v env = Except.error e) ↔
          ∃ vr ∈ c.varPositions, execErrCond env v vr = true) ∧
    (∀ (c : Template) (v : VarMap) (env : Env) (r : List Char),
        c.Execute v env = Except.error (ApplyError.missingRequired r) →
        ∃ vr ∈ c.varPositions, vr.raw = r ∧ vr.required = true) ∧
    (∀ env : Env, (Compile (str "Hello $\x7bname!\x7d")).Execute [] env
        = Except.error (ApplyError.missingRequired (str "name!"))) ∧
    (∀ (w : List Char) (env : Env),
        ∃ out, (Compile (str "Hello $\x7bname!\x7d")).Execute
          [(str "name", w)] env = Except.ok out) := by
  refine ⟨exec_error_iff, ?_, ?_, ?_⟩
  · intro c v env r h
    unfold Template.Execute Template.apply at h
    simp only [Bool.not_true, Bool.and_false, Bool.false_eq_true, if_false] at h
    cases hlp : applyLoop env v true true true c.template c.varPositions none
        ⟨[], 0, [], []⟩ with
    | error e =>
      rw [hlp] at h
      injection h with h2
      subst h2
      exact applyLoop_missing_shape env v true true true c.template
        c.varPositions none ⟨[], 0, [], []⟩ r hlp
    | ok st =>
      rw [hlp] at h
      exact Except.noConfusion h
  · intro env
    rfl
  · intro w env
    cases hx : (Compile (str "Hello $\x7bname!\x7d")).Execute
        [(str "name", w)] env with
    | ok out => exact ⟨out, rfl⟩
    | error e =>
      exfalso
      obtain ⟨vr, hmem, hcond⟩ := (exec_error_iff _ _ _).mp ⟨e, hx⟩
      have hpos : (Compile (str "Hello $\x7bname!\x7d")).varPositions
          = [⟨str "name!", str "name", false, RepeatMode.same, false, [],
              true, false, false, false, false, 6, 13, 1⟩] := rfl
      rw [hpos, List.mem_singleton] at hmem
      subst hmem
      have h0 : execErrCond env [(str "name", w)]
          ⟨str "name!", str "name", false, RepeatMode.same, false, [],
            true, false, false, false, false, 6, 13, 1⟩ = false := rfl
      rw [h0] at hcond
      exact Bool.noConfusion hcond

/-- C8, witness. -/
theorem claim_C8_witness :
    ∃ out, (Compile (str "Hello $\x7bname!\x7d")).Execute
        [(str "name", str "World")] env0 = Except.ok out :=
  claim_C8_amended.2.2.2 (str "World") env0

theorem applyResolved_sq (s : List Char) (prev : Option VarPos)
    (vr : VarPos) (st : LoopSt) (val0 : List Char)
    (hsq : vr.isShellQuote = true) (hb : vr.isBash = false)
    (hf : vr.isFile = false) (hnum : vr.isNumber = false)
    (hne : val0 ≠ []) :
    applyResolved s prev vr st val0
      = { st with b := st.b ++ slice s st.oldIdx vr.openPos ++ quoteShellStr val0,
                  oldIdx := getVarEndPos s vr } := by
  unfold applyResolved
  rw [hsq, hb, hf, hnum]
  simp [hne]

/-- C4 (amended): a shell_quote value that resolves to a non-empty
string is shell-quoted — single-quoted with embedded quotes escaped when
it contains whitespace or shell metacharacters, bare otherwise — but an
empty resolved value is substituted as the empty string (no quoted
empty-string token appears, because apply skips directive processing
for empty values). -/
theorem claim_C4_amended :
    (∀ (val : List Char) (env : Env),
        (Compile (str "x=$\x7ba:shell_quote\x7d")).Execute
            [(str "a", val)] env
          = Except.ok (str "x=" ++
              (if val = [] then [] else quoteShellStr val))) ∧
    quoteShellStr (str "a b") = [quoteChar] ++ str "a b" ++ [quoteChar] ∧
    quoteShellStr (str "a " ++ [quoteChar] ++ str "b")
      = [quoteChar] ++ str "a " ++ [quoteChar, '\\', quoteChar, quoteChar]
          ++ str "b" ++ [quoteChar] ∧
    quoteShellStr (str "abc") = str "abc" := by
  refine ⟨?_, by decide, by decide, by decide⟩
  intro val env
  by_cases hv : val = []
  · subst hv
    rfl
  · unfold Template.Execute Template.apply
    simp only [Bool.not_true, Bool.and_false, Bool.false_eq_true, if_false]
    have hres : resolveVal env [(str "a", val)] true
        ⟨str "a:shell_quote", str "a", false, RepeatMode.same, false, [],
          false, false, false, false, true, 2, 17, 1⟩
        = Except.ok (some val) := rfl
    rw [show (Compile (str "x=$\x7ba:shell_quote\x7d")).varPositions
      = [⟨str "a:shell_quote", str "a", false, RepeatMode.same, false, [],
          false, false, false, false, true, 2, 17, 1⟩] from rfl]
    rw [show (Compile (str "x=$\x7ba:shell_quote\x7d")).template
      = str "x=$\x7ba:shell_quote\x7d" from rfl]
    simp only [applyLoop, applyStep, hres]
    rw [applyResolved_sq _ _ _ _ _ rfl rfl rfl rfl hv]
    simp [hv, slice, getVarEndPos, isDollarSyntax, str, closeStr,
      List.append_nil]

theorem strIndex_no_q (s : List Char) (h : ∀ c ∈ s, c ≠ '?') :
    strIndex s (str "?:") = none := by
  induction s with
  | nil => rfl
  | cons c t ih =>
    have hc : c ≠ '?' := h c (List.mem_cons_self _ _)
    unfold strIndex
    have hpf : List.isPrefixOf (str "?:") (c :: t) = false := by
      simp only [str]
      show List.isPrefixOf ['?', ':'] (c :: t) = false
      simp [List.isPrefixOf]
      intro hq
      exact absurd hq.symm hc
    simp only [hpf, Bool.false_eq_true, if_false]
    rw [ih (fun x hx => h x (List.mem_cons_of_mem _ hx))]
    rfl

theorem strIndex_colon (name rest : List Char) (h : ∀ c ∈ name, c ≠ ':') :
    strIndex (name ++ ':' :: rest) (str ":") = some name.length := by
  induction name with
  | nil =>
    show strIndex (':' :: rest) (str ":") = some 0
    unfold strIndex
    simp [str, List.isPrefixOf]
  | cons c t ih =>
    have hc : c ≠ ':' := h c (List.mem_cons_self _ _)
    show strIndex (c :: (t ++ ':' :: rest)) (str ":") = some (t.length + 1)
    unfold strIndex
    have hpf : List.isPrefixOf (str ":") (c :: (t ++ ':' :: rest)) = false := by
      simp only [str]
      show List.isPrefixOf [':'] (c :: (t ++ ':' :: rest)) = false
      simp [List.isPrefixOf]
      intro hq
      exact absurd hq.symm hc
    simp only [hpf, Bool.false_eq_true, if_false]
    rw [ih (fun x hx => h x (List.mem_cons_of_mem _ hx))]
    rfl

theorem suffix_colon_tail (name rest pat : List Char)
    (hn : ∀ c ∈ name, c ≠ ':') (hr : ∀ c ∈ rest, c ≠ ':')
    (h : List.isSuffixOf (':' :: pat) (name ++ ':' :: rest) = true) :
    rest = pat := by
  obtain ⟨t, ht⟩ := List.isSuffixOf_iff_suffix.mp h
  rcases Nat.lt_trichotomy t.length name.length with hlt | heq | hgt
  · exfalso
    have h1 : (t ++ ':' :: pat)[t.length]? = some ':' := by
      rw [List.getElem?_append]
      simp
    rw [ht, List.getElem?_append, if_pos hlt] at h1
    exact hn ':' (List.getElem?_mem h1) rfl
  · have h2 := List.append_inj ht heq
    injection h2.2 with _ h3
    exact h3.symm
  · exfalso
    have h1 : (t ++ ':' :: pat)[t.length]? = some ':' := by
      rw [List.getElem?_append]
      simp
    rw [ht, List.getElem?_append, if_neg (by omega)] at h1
    have hpos : 1 ≤ t.length - name.length := by omega
    obtain ⟨k, hk⟩ := Nat.exists_eq_add_of_le hpos
    rw [hk, Nat.add_comm, List.getElem?_cons_succ] at h1
    exact hr ':' (List.getElem?_mem h1) rfl

theorem pvnrLoop_alnum (name : List Char)
    (h : ∀ c ∈ name, isAlnumU c = true) :
    pvnrLoop name = (name, false) := by
  induction name with
  | nil => rfl
  | cons c t ih =>
    have hc := h c (List.mem_cons_self _ _)
    unfold isAlnumU at hc
    unfold pvnrLoop
    simp only [hc, if_true]
    rw [ih (fun x hx => h x (List.mem_cons_of_mem _ hx))]

theorem dropWhile_no (p : Char → Bool) (s : List Char)
    (h : ∀ c ∈ s, p c = false) : s.dropWhile p = s := by
  cases s with
  | nil => rfl
  | cons c t => simp [List.dropWhile, h c (List.mem_cons_self _ _)]

theorem trimSpace_no (s : List Char) (h : ∀ c ∈ s, isSpaceGo c = false) :
    trimSpace s = s := by
  unfold trimSpace
  rw [dropWhile_no _ _ h, dropWhile_no, List.reverse_reverse]
  intro c hc
  exact h c (by simpa using hc)

theorem contains_false (s : List Char) (a : Char) (h : ∀ c ∈ s, c ≠ a) :
    s.contains a = false := by
  show List.elem a s = false
  rw [List.elem_eq_mem]
  simp only [decide_eq_false_iff_not]
  intro hm
  exact h a hm rfl

/-- C3 (amended): a single unrecognized trailing directive is not a
parse failure: the Directive Parser succeeds, extracting the variable
name before the `:` and silently dropping the unknown directive text
(no flag is set); only a trailing part with a further `:` is a parse
failure.  The hypotheses say: the name is a non-empty run of
letters/digits/underscores, and the trailing directive text contains no
`:` or `?` and is none of the six recognized markers. -/
theorem claim_C3_amended (name rest : List Char)
    (hne : name ≠ [])
    (hnc : ∀ c ∈ name, isAlnumU c = true ∧ isSpaceGo c = false ∧
      c ≠ ':' ∧ c ≠ '?' ∧ c ≠ '@')
    (hrc : ∀ c ∈ rest, c ≠ ':' ∧ c ≠ '?')
    (hdir : isDirectiveTail rest = false) :
    parseVariableDefinition (name ++ ':' :: rest)
        = Except.ok { ParsedDef.zero with name := name } ∧
      (parseVarName (name ++ ':' :: rest)).varName = name := by
  have hsb : List.isSuffixOf (str ":bash") (name ++ ':' :: rest) = false := by
    cases hx : List.isSuffixOf (str ":bash") (name ++ ':' :: rest) with
    | false => rfl
    | true =>
      exfalso
      have hrb := suffix_colon_tail name rest (str "bash")
        (fun c hc => (hnc c hc).2.2.1) (fun c hc => (hrc c hc).1) hx
      rw [hrb] at hdir
      exact absurd hdir (by decide)
  have hsf : List.isSuffixOf (str ":file") (name ++ ':' :: rest) = false := by
    cases hx : List.isSuffixOf (str ":file") (name ++ ':' :: rest) with
    | false => rfl
    | true =>
      exfalso
      have hrb := suffix_colon_tail name rest (str "file")
        (fun c hc => (hnc c hc).2.2.1) (fun c hc => (hrc c hc).1) hx
      rw [hrb] at hdir
      exact absurd hdir (by decide)
  have hq : strIndex (name ++ ':' :: rest) (str "?:") = none := by
    apply strIndex_no_q
    intro c hc
    rcases List.mem_append.mp hc with hc1 | hc2
    · exact (hnc c hc1).2.2.2.1
    · rcases List.mem_cons.mp hc2 with rfl | hc3
      · decide
      · exact (hrc c hc3).2
  have hcol : strIndex (name ++ ':' :: rest) (str ":") = some name.length :=
    strIndex_colon name rest (fun c hc => (hnc c hc).2.2.1)
  have hpvnr : parseVariableNameAndRequired name = (name, false) := by
    unfold parseVariableNameAndRequired
    rw [trimSpace_no name (fun c hc => (hnc c hc).2.1)]
    exact pvnrLoop_alnum name (fun c hc => (hnc c hc).1)
  have hcont : rest.contains ':' = false :=
    contains_false rest ':' (fun c hc => (hrc c hc).1)
  have hmain : parseVariableDefinition (name ++ ':' :: rest)
      = Except.ok { ParsedDef.zero with name := name } := by
    unfold parseVariableDefinition
    simp only [hsb, hsf, Bool.false_eq_true, if_false, hq, hcol]
    rw [List.take_left, List.drop_left, hpvnr]
    have hd1 : rest ≠ str "%d" := fun hx => by
      rw [hx] at hdir; exact absurd hdir (by decide)
    have hd2 : rest ≠ str "+" := fun hx => by
      rw [hx] at hdir; exact absurd hdir (by decide)
    have hd3 : rest ≠ str "*" := fun hx => by
      rw [hx] at hdir; exact absurd hdir (by decide)
    have hd4 : rest ≠ str "shell_quote" := fun hx => by
      rw [hx] at hdir; exact absurd hdir (by decide)
    simp only [str] at hd1 hd2 hd3 hd4
    have hmem : ':' ∉ rest := fun hm => (hrc ':' hm).1 rfl
    simp [str, List.isPrefixOf, hmem, hd1, hd2, hd3, hd4, ParsedDef.zero]
  refine ⟨hmain, ?_⟩
  unfold parseVarName
  have hpfx : List.isPrefixOf (str "@") (name ++ ':' :: rest) = false := by
    cases name with
    | nil => exact absurd rfl hne
    | cons c t =>
      have hc := (hnc c (List.mem_cons_self _ _)).2.2.2.2
      simp only [str]
      show List.isPrefixOf ['@'] (c :: (t ++ ':' :: rest)) = false
      simp [List.isPrefixOf]
      intro hq2
      exact absurd hq2.symm hc
  simp only [hpfx, Bool.false_eq_true, if_false, hmain]
  show trimSpace name = name
  exact trimSpace_no name (fun c hc => (hnc c hc).2.1)

/-- C3, witness. -/
theorem claim_C3_witness :
    parseVariableDefinition (str "a" ++ ':' :: str "foo")
        = Except.ok { ParsedDef.zero with name := str "a" } ∧
      (parseVarName (str "a" ++ ':' :: str "foo")).varName = str "a" :=
  claim_C3_amended (str "a") (str "foo") (by decide) (by decide) (by decide)
    (by decide)

/-- C4, witness. -/
theorem claim_C4_witness :
    (Compile (str "x=$\x7ba:shell_quote\x7d")).Execute
        [(str "a", str "a b")] env0
      = Except.ok (str "x=" ++ [quoteChar] ++ str "a b" ++ [quoteChar]) := by
  have h := claim_C4_amended.1 (str "a b") env0
  rw [h]
  rfl

/-- C1, counterexample: on the template `${a!}`, a non-empty mapping not
containing `a`, and options with only ValidateRequired set, `Apply` does
not surface the MissingRequiredVariable condition as a recoverable error
value — it panics (the source's `panic(err)`), modelled as the fatal
outcome. -/
theorem claim_C1_counterexample :
    (Compile (str "$\x7ba!\x7d")).Apply [(str "b", str "x")]
      ⟨false, false, true⟩ env0
      = Outcome.fatal (ApplyError.missingRequired (str "a!")) := by
  rfl

/-- C2, counterexample: `PartialApply` does execute `:bash` descriptors:
with a failing bash collaborator it panics (so it can fail), and with a
succeeding one the command output is substituted (so the placeholder is
not left unresolved). -/
theorem claim_C2_counterexample :
    (Compile (str "$\x7bls:bash\x7d")).PartialApply [(str "y", str "z")] env0
        = Outcome.fatal (ApplyError.bashError (str "ls")) ∧
      (Compile (str "$\x7bls:bash\x7d")).PartialApply [(str "y", str "z")] envB
        = Outcome.ok ⟨str "OUT", [], []⟩ := by
  constructor <;> rfl

/-- C3, counterexample: `${a:foo}` is not a parse failure and is not
discarded as literal text: the variable `a` is extracted and
substitution replaces the whole placeholder with its value. -/
theorem claim_C3_counterexample :
    (Compile (str "$\x7ba:foo\x7d")).varPositions.map VarPos.varName
        = [str "a"] ∧
      (Compile (str "$\x7ba:foo\x7d")).Execute [(str "a", str "X")] env0
        = Except.ok (str "X") := by
  constructor <;> rfl

/-- C4, counterexample: a shell_quote placeholder resolving to the empty
string is substituted by nothing — the output is `x=`, which contains no
quote character at all, rather than containing a quoted empty-string
token. -/
theorem claim_C4_counterexample :
    (Compile (str "x=$\x7ba:shell_quote\x7d")).Execute [(str "a", [])] env0
        = Except.ok (str "x=") ∧
      quoteChar ∉ str "x=" := by
  constructor
  · rfl
  · decide

/-- C5, counterexample: in `${a $b` the open marker has no close marker,
yet scanning does not stop: the bare placeholder `$b` in the remainder is
still recognized and substituted. -/
theorem claim_C5_counterexample :
    (Compile (str "$\x7ba $b")).varPositions.map VarPos.varName
        = [str "b"] ∧
      (Compile (str "$\x7ba $b")).Execute [(str "b", str "X")] env0
        = Except.ok (str "$\x7ba X") := by
  constructor <;> rfl

/-- C6, counterexample: compilation of `\$.` finds no placeholder
occurrence, yet Execute does not return the original string: the escape
normalization pass removes the backslash before the `$`. -/
theorem claim_C6_counterexample :
    (Compile (str "\\$.")).varPositions = [] ∧
      (Compile (str "\\$.")).Execute [] env0 = Except.ok (str "$.") ∧
      str "$." ≠ str "\\$." := by
  refine ⟨rfl, rfl, ?_⟩
  decide

/-- C7, counterexample: on `${a}${b:%d}"` with the disjoint mappings
v1 = \x7ba ↦ a double quote\x7d and v2 = \x7bb ↦ 2\x7d, sequential partial
application gives `2` while the merged mapping gives `"2"`: the value of
`a` supplies a quote character that triggers numeric quote-stripping only
in the sequential run. -/
theorem claim_C7_counterexample :
    (∀ p1 ∈ [((str "a"), ['"'])], ∀ p2 ∈ [((str "b"), str "2")],
        p1.1 ≠ p2.1) ∧
      partialApplyTwice (Compile (str "$\x7ba\x7d$\x7bb:%d\x7d\""))
          [((str "a"), ['"'])] [((str "b"), str "2")] env0
        ≠ (Compile (str "$\x7ba\x7d$\x7bb:%d\x7d\"")).PartialApply
          ([((str "a"), ['"'])] ++ [((str "b"), str "2")]) env0 := by
  constructor
  · decide
  · decide

/-- C8, counterexample: on `${x:bash}` no descriptor is required, yet
Execute fails (with a side-effect failure) under a failing bash
collaborator — so "fails exactly when some required descriptor is
unresolved" does not hold. -/
theorem claim_C8_counterexample :
    (∀ vr ∈ (Compile (str "$\x7bx:bash\x7d")).varPositions,
        vr.required = false) ∧
      (Compile (str "$\x7bx:bash\x7d")).Execute [] env0
        = Except.error (ApplyError.bashError (str "x")) := by
  constructor
  · decide
  · rfl


theorem extractDollarVarName_pos (x : List Char)
    (h : (extractDollarVarName x).1 ≠ []) :
    1 ≤ (extractDollarVarName x).2 := by
  unfold extractDollarVarName at h ⊢
  rcases x with _ | ⟨c, rest⟩
  · exact absurd rfl h
  · rcases rest with _ | ⟨d, rest2⟩ <;>
      dsimp only at h ⊢ <;>
      split_ifs at h ⊢ <;> simp_all <;> omega

theorem compileLoop_shift : ∀ (fuel : Nat) (s : List Char) (i j idx : Nat),
    compileLoop fuel s (i + j) idx
      = (compileLoop fuel s j idx).map (shiftPos i) := by
  intro fuel
  induction fuel with
  | zero => intro s i j idx; rfl
  | succ fuel ih =>
    intro s i j idx
    by_cases hs : s = []
    · subst hs; rfl
    · simp only [compileLoop]
      rw [if_neg hs, if_neg hs]
      rcases hb : strIndex s openStr with _ | b <;>
        rcases hd : findNextDollarVar s with _ | d <;>
        dsimp only <;>
        try simp only [Bool.false_eq_true, eq_self_iff_true, if_true, if_false]
      -- none / none
      · rfl
      -- none / some d : dollar path
      · by_cases hesc : (decide (d > 0) && decide (s.getD (d - 1) ' ' = '\\')) = true
        · simp only [if_pos hesc, Nat.add_assoc]
          exact ih _ _ _ _
        · simp only [if_neg hesc]
          by_cases hx1 : (extractDollarVarName (List.drop d s)).1 = []
          · simp only [if_pos hx1, Nat.add_assoc]
            exact ih _ _ _ _
          · simp only [if_neg hx1]
            by_cases hx2 : (parseVarName
                (extractDollarVarName (List.drop d s)).1).varName = []
            · simp only [if_pos hx2, Nat.add_assoc]
              exact ih _ _ _ _
            · simp only [if_neg hx2]
              have hge := extractDollarVarName_pos _ hx1
              simp only [List.map_cons, Nat.add_assoc]
              rw [ih]
              congr 1
              simp only [shiftPos, VarPos.mk.injEq, true_and, and_true]
              constructor
              · omega
              · omega
      -- some b / none : brace path
      · by_cases hesc : (decide (b > 0) && decide (s.getD (b - 1) ' ' = '\\')) = true
        · simp only [if_pos hesc, Nat.add_assoc]
          exact ih _ _ _ _
        · simp only [if_neg hesc]
          cases hcc : strIndex (List.drop (b + openStr.length) s) closeStr with
          | none =>
            simp only [Nat.add_assoc]
            exact ih _ _ _ _
          | some k =>
            try dsimp only
            by_cases hv : (parseVarName (trimSpace
                (slice s (b + openStr.length) (k + (b + openStr.length))))).varName = []
            · simp only [if_pos hv, Nat.add_assoc]
              exact ih _ _ _ _
            · simp only [if_neg hv]
              simp only [List.map_cons, Nat.add_assoc]
              rw [ih]
              congr 1
              simp only [shiftPos, VarPos.mk.injEq, true_and, and_true]
              constructor
              · omega
              · omega
      -- some b / some d
      · by_cases hbd : b < d
        · simp only [if_pos hbd]
          try dsimp only
          try simp only [Bool.false_eq_true, eq_self_iff_true, if_true, if_false]
          by_cases hesc : (decide (b > 0) && decide (s.getD (b - 1) ' ' = '\\')) = true
          · simp only [if_pos hesc, Nat.add_assoc]
            exact ih _ _ _ _
          · simp only [if_neg hesc]
            cases hcc : strIndex (List.drop (b + openStr.length) s) closeStr with
            | none =>
              simp only [Nat.add_assoc]
              exact ih _ _ _ _
            | some k =>
              try dsimp only
              by_cases hv : (parseVarName (trimSpace
                  (slice s (b + openStr.length) (k + (b + openStr.length))))).varName = []
              · simp only [if_pos hv, Nat.add_assoc]
                exact ih _ _ _ _
              · simp only [if_neg hv]
                simp only [List.map_cons, Nat.add_assoc]
                rw [ih]
                congr 1
                simp only [shiftPos, VarPos.mk.injEq, true_and, and_true]
                constructor
                · omega
                · omega
        · simp only [if_neg hbd]
          try dsimp only
          try simp only [Bool.false_eq_true, eq_self_iff_true, if_true, if_false]
          by_cases hesc : (decide (d > 0) && decide (s.getD (d - 1) ' ' = '\\')) = true
          · simp only [if_pos hesc, Nat.add_assoc]
            exact ih _ _ _ _
          · simp only [if_neg hesc]
            by_cases hx1 : (extractDollarVarName (List.drop d s)).1 = []
            · simp only [if_pos hx1, Nat.add_assoc]
              exact ih _ _ _ _
            · simp only [if_neg hx1]
              by_cases hx2 : (parseVarName
                  (extractDollarVarName (List.drop d s)).1).varName = []
              · simp only [if_pos hx2, Nat.add_assoc]
                exact ih _ _ _ _
              · simp only [if_neg hx2]
                have hge := extractDollarVarName_pos _ hx1
                simp only [List.map_cons, Nat.add_assoc]
                rw [ih]
                congr 1
                simp only [shiftPos, VarPos.mk.injEq, true_and, and_true]
                constructor
                · omega
                · omega

theorem compileLoop_fuel_succ : ∀ (fuel : Nat) (s : List Char) (i idx : Nat),
    s.length ≤ fuel →
    compileLoop (fuel + 1) s i idx = compileLoop fuel s i idx := by
  intro fuel
  induction fuel with
  | zero =>
    intro s i idx hlen
    have hs : s = [] := List.length_eq_zero.mp (Nat.le_zero.mp hlen)
    subst hs
    rfl
  | succ fuel ih =>
    intro s i idx hlen
    by_cases hs : s = []
    · subst hs; rfl
    · conv_lhs => rw [compileLoop]
      conv_rhs => rw [compileLoop]
      rw [if_neg hs, if_neg hs]
      rcases hb : strIndex s openStr with _ | b <;>
        rcases hd : findNextDollarVar s with _ | d <;>
        dsimp only <;>
        try simp only [Bool.false_eq_true, eq_self_iff_true, if_true, if_false]
      -- none / some d : dollar path
      · by_cases hesc : (decide (d > 0) && decide (s.getD (d - 1) ' ' = '\\')) = true
        · simp only [if_pos hesc]
          exact ih _ _ _ (by simp only [List.length_drop]; omega)
        · simp only [if_neg hesc]
          by_cases hx1 : (extractDollarVarName (List.drop d s)).1 = []
          · simp only [if_pos hx1]
            exact ih _ _ _ (by simp only [List.length_drop]; omega)
          · simp only [if_neg hx1]
            by_cases hx2 : (parseVarName
                (extractDollarVarName (List.drop d s)).1).varName = []
            · simp only [if_pos hx2]
              exact ih _ _ _ (by simp only [List.length_drop]; omega)
            · simp only [if_neg hx2]
              have hge := extractDollarVarName_pos _ hx1
              congr 1
              exact ih _ _ _ (by simp only [List.length_drop]; omega)
      -- some b / none : brace path
      · by_cases hesc : (decide (b > 0) && decide (s.getD (b - 1) ' ' = '\\')) = true
        · simp only [if_pos hesc]
          exact ih _ _ _ (by simp only [List.length_drop]; omega)
        · simp only [if_neg hesc]
          cases hcc : strIndex (List.drop (b + openStr.length) s) closeStr with
          | none =>
            exact ih _ _ _
              (by simp only [List.length_drop, openStr, List.length_cons,
                List.length_nil]; omega)
          | some k =>
            try dsimp only
            by_cases hv : (parseVarName (trimSpace
                (slice s (b + openStr.length) (k + (b + openStr.length))))).varName = []
            · simp only [if_pos hv]
              exact ih _ _ _
                (by simp only [List.length_drop, openStr, closeStr,
                  List.length_cons, List.length_nil]; omega)
            · simp only [if_neg hv]
              congr 1
              exact ih _ _ _
                (by simp only [List.length_drop, openStr, closeStr,
                  List.length_cons, List.length_nil]; omega)
      -- some b / some d
      · by_cases hbd : b < d
        · simp only [if_pos hbd]
          try dsimp only
          try simp only [Bool.false_eq_true, eq_self_iff_true, if_true, if_false]
          by_cases hesc : (decide (b > 0) && decide (s.getD (b - 1) ' ' = '\\')) = true
          · simp only [if_pos hesc]
            exact ih _ _ _ (by simp only [List.length_drop]; omega)
          · simp only [if_neg hesc]
            cases hcc : strIndex (List.drop (b + openStr.length) s) closeStr with
            | none =>
              exact ih _ _ _
                (by simp only [List.length_drop, openStr, List.length_cons,
                  List.length_nil]; omega)
            | some k =>
              try dsimp only
              by_cases hv : (parseVarName (trimSpace
                  (slice s (b + openStr.length) (k + (b + openStr.length))))).varName = []
              · simp only [if_pos hv]
                exact ih _ _ _
                  (by simp only [List.length_drop, openStr, closeStr,
                    List.length_cons, List.length_nil]; omega)
              · simp only [if_neg hv]
                congr 1
                exact ih _ _ _
                  (by simp only [List.length_drop, openStr, closeStr,
                    List.length_cons, List.length_nil]; omega)
        · simp only [if_neg hbd]
          try dsimp only
          try simp only [Bool.false_eq_true, eq_self_iff_true, if_true, if_false]
          by_cases hesc : (decide (d > 0) && decide (s.getD (d - 1) ' ' = '\\')) = true
          · simp only [if_pos hesc]
            exact ih _ _ _ (by simp only [List.length_drop]; omega)
          · simp only [if_neg hesc]
            by_cases hx1 : (extractDollarVarName (List.drop d s)).1 = []
            · simp only [if_pos hx1]
              exact ih _ _ _ (by simp only [List.length_drop]; omega)
            · simp only [if_neg hx1]
              by_cases hx2 : (parseVarName
                  (extractDollarVarName (List.drop d s)).1).varName = []
              · simp only [if_pos hx2]
                exact ih _ _ _ (by simp only [List.length_drop]; omega)
              · simp only [if_neg hx2]
                have hge := extractDollarVarName_pos _ hx1
                congr 1
                exact ih _ _ _ (by simp only [List.length_drop]; omega)

theorem compileLoop_fuel_add : ∀ (m : Nat) (s : List Char) (i idx : Nat),
    compileLoop (s.length + m) s i idx = compileLoop s.length s i idx := by
  intro m
  induction m with
  | zero => intro s i idx; rfl
  | succ m ih =>
    intro s i idx
    have h1 : s.length + (m + 1) = (s.length + m) + 1 := by omega
    rw [h1, compileLoop_fuel_succ (s.length + m) s i idx (by omega), ih]

theorem compileLoop_fuel_ge (fuel : Nat) (s : List Char) (i idx : Nat)
    (h : s.length ≤ fuel) :
    compileLoop fuel s i idx = compileLoop s.length s i idx := by
  obtain ⟨m, hm⟩ := Nat.exists_eq_add_of_le h
  rw [hm, compileLoop_fuel_add]

theorem strIndex_head_not_mem (s : List Char) (c : Char) (pat : List Char)
    (h : c ∉ s) : strIndex s (c :: pat) = none := by
  induction s with
  | nil => rfl
  | cons a t ih =>
    unfold strIndex
    have hpf : List.isPrefixOf (c :: pat) (a :: t) = false := by
      simp [List.isPrefixOf]
      intro hq
      rw [hq] at h
      exact absurd (List.mem_cons_self a t) h
    simp only [hpf, Bool.false_eq_true, if_false]
    rw [ih (fun hm => h (List.mem_cons_of_mem _ hm))]
    rfl

theorem no_backslash_pairFree (s : List Char) (h : '\\' ∉ s) :
    escPairFree s := by
  intro j hj hpair
  apply h
  rw [List.getD_eq_getElem s ' ' hj] at hpair
  exact hpair.1 ▸ List.getElem_mem hj

theorem findNextAux_ge : ∀ (l : List Char) (i n : Nat),
    findNextDollarVarAux l i = some n → i ≤ n := by
  intro l
  induction l with
  | nil => intro i n h; exact Option.noConfusion h
  | cons c rest ih =>
    intro i n h
    unfold findNextDollarVarAux at h
    split_ifs at h
    · cases rest with
      | nil => exact Option.noConfusion h
      | cons d r2 =>
        dsimp only at h
        split_ifs at h
        · exact Nat.le_of_succ_le (ih (i + 1) n h)
        · injection h with h2
          omega
        · exact Nat.le_of_succ_le (ih (i + 1) n h)
    · exact Nat.le_of_succ_le (ih (i + 1) n h)

/-- C5 (amended): an unclosed `${` does not stop the scan: only the
two-character open marker becomes literal text and the scanner
continues with the remainder, recognizing exactly the placeholders of
the remainder (at offsets shifted by the two marker characters).  The
hypotheses restrict to remainders without a close marker (so the `${`
really is unclosed) and without backslashes (so escape normalization
is inert and the positions are directly comparable). -/
theorem claim_C5_amended (rest : List Char)
    (hclose : '\x7d' ∉ rest) (hbs : '\\' ∉ rest) :
    (Compile (openStr ++ rest)).template = openStr ++ rest ∧
    (Compile (openStr ++ rest)).varPositions
      = ((Compile rest).varPositions).map (shiftPos 2) ∧
    (Compile (openStr ++ rest)).vars = (Compile rest).vars := by
  have hlen : (openStr ++ rest).length = rest.length + 1 + 1 := by
    simp [openStr]
  have hfin : compileLoop (rest.length + 1) rest 2 0
      = (compileLoop rest.length rest 0 0).map (shiftPos 2) := by
    rw [compileLoop_fuel_succ rest.length rest 2 0 (Nat.le_refl _)]
    have h2 := compileLoop_shift rest.length rest 2 0 0
    simpa using h2
  have hscan : compileLoop ((openStr ++ rest).length) (openStr ++ rest) 0 0
      = (compileLoop rest.length rest 0 0).map (shiftPos 2) := by
    rw [hlen]
    show compileLoop (rest.length + 1 + 1) ('$' :: '{' :: rest) 0 0 = _
    conv_lhs => rw [compileLoop]
    rw [if_neg (by simp)]
    have hb0 : strIndex ('$' :: '{' :: rest) openStr = some 0 := by
      unfold strIndex
      simp [openStr, List.isPrefixOf]
    rw [hb0]
    have hstep : findNextDollarVar ('$' :: '{' :: rest)
        = findNextDollarVarAux rest 2 := rfl
    have hcl : strIndex (List.drop (0 + openStr.length) ('$' :: '{' :: rest))
        closeStr = none := by
      show strIndex rest closeStr = none
      exact strIndex_head_not_mem rest '\x7d' [] hclose
    rcases hfd : findNextDollarVar ('$' :: '{' :: rest) with _ | d
    · dsimp only
      rw [if_neg (by simp)]
      rw [hcl]
      exact hfin
    · have hd2 : 2 ≤ d := findNextAux_ge rest 2 d (hstep ▸ hfd)
      dsimp only
      rw [if_pos (by omega)]
      dsimp only
      rw [if_neg (by simp)]
      rw [hcl]
      exact hfin
  have hpfL : escPairFree (openStr ++ rest) := by
    apply no_backslash_pairFree
    intro hmem
    rcases List.mem_append.mp hmem with h | h
    · exact absurd h (by decide)
    · exact hbs h
  have hpfR : escPairFree rest := no_backslash_pairFree rest hbs
  have hprocL := processEscapesLoop_pairFree (openStr ++ rest) 0
    (compileLoop (openStr ++ rest).length (openStr ++ rest) 0 0) hpfL
  have hprocR := processEscapesLoop_pairFree rest 0
    (compileLoop rest.length rest 0 0) hpfR
  refine ⟨?_, ?_, ?_⟩
  · show (processEscapesLoop (openStr ++ rest) 0
      (compileLoop (openStr ++ rest).length (openStr ++ rest) 0 0)).1 = _
    rw [hprocL]
  · show (processEscapesLoop (openStr ++ rest) 0
        (compileLoop (openStr ++ rest).length (openStr ++ rest) 0 0)).2
      = ((processEscapesLoop rest 0 (compileLoop rest.length rest 0 0)).2).map
          (shiftPos 2)
    rw [hprocL, hprocR]
    exact hscan
  · show getVars ((compileLoop (openStr ++ rest).length (openStr ++ rest)
        0 0).map (fun p => p.varName))
      = getVars ((compileLoop rest.length rest 0 0).map (fun p => p.varName))
    rw [hscan, List.map_map]
    rfl

/-- C5, witness. -/
theorem claim_C5_witness :
    (Compile (openStr ++ str "a $b")).template = openStr ++ str "a $b" ∧
      (Compile (openStr ++ str "a $b")).varPositions
        = ((Compile (str "a $b")).varPositions).map (shiftPos 2) ∧
      (Compile (openStr ++ str "a $b")).vars = (Compile (str "a $b")).vars :=
  claim_C5_amended (str "a $b") (by decide) (by decide)


theorem getD_drop (l : List Char) (i j : Nat) (d : Char) :
    (l.drop i).getD j d = l.getD (i + j) d := by
  rw [List.getD_eq_getElem?_getD, List.getD_eq_getElem?_getD,
    List.getElem?_drop]

theorem isValidVarChar_ne_backslash (c : Char)
    (h : isValidVarChar c = true) : c ≠ '\\' := by
  intro he
  rw [he] at h
  exact absurd h (by decide)

theorem start_not_at_isChar (c : Char) (h1 : isValidVarStart c = true)
    (h2 : c ≠ '@') : isValidVarChar c = true := by
  unfold isValidVarStart at h1
  unfold isValidVarChar
  simp only [Bool.or_eq_true] at h1 ⊢
  rcases h1 with ((h | h) | h) | h
  · exact Or.inl (Or.inl (Or.inl h))
  · exact Or.inl (Or.inl (Or.inr h))
  · exact Or.inr h
  · exact absurd (by simpa using h) h2

theorem takeWhile_getD (p : Char → Bool) (l : List Char) (k : Nat) (d : Char)
    (hk : k < (l.takeWhile p).length) : p (l.getD k d) = true := by
  have hpre := List.takeWhile_prefix (l := l) (p := p)
  have hkl : k < l.length := Nat.lt_of_lt_of_le hk hpre.length_le
  rw [List.getD_eq_getElem l d hkl]
  rw [← List.IsPrefix.getElem hpre hk]
  exact List.mem_takeWhile_imp (List.getElem_mem hk)

theorem strIndex_spec : ∀ (s pat : List Char) (n : Nat),
    strIndex s pat = some n →
    List.isPrefixOf pat (s.drop n) = true ∧ n + pat.length ≤ s.length := by
  intro s
  induction s with
  | nil =>
    intro pat n h
    unfold strIndex at h
    split_ifs at h with hp
    · injection h with h2
      subst h2
      refine ⟨hp, ?_⟩
      have := (List.isPrefixOf_iff_prefix.mp hp).length_le
      simpa using this
  | cons c t ih =>
    intro pat n h
    unfold strIndex at h
    split_ifs at h with hp
    · injection h with h2
      subst h2
      exact ⟨hp, by
        have := (List.isPrefixOf_iff_prefix.mp hp).length_le
        simpa using this⟩
    · cases hr : strIndex t pat with
      | none => rw [hr] at h; exact Option.noConfusion h
      | some m =>
        rw [hr] at h
        injection h with h2
        subst h2
        obtain ⟨hpre, hlen⟩ := ih pat m hr
        refine ⟨by simpa using hpre, ?_⟩
        simp only [List.length_cons]
        omega

theorem findNextDollarVarAux_spec : ∀ (l : List Char) (i n : Nat),
    findNextDollarVarAux l i = some n →
    i ≤ n ∧ n - i + 1 < l.length ∧ l.getD (n - i) ' ' = '$' ∧
      isValidVarStart (l.getD (n - i + 1) ' ') = true := by
  intro l
  induction l with
  | nil => intro i n h; exact Option.noConfusion h
  | cons c rest ih =>
    intro i n h
    unfold findNextDollarVarAux at h
    split_ifs at h with hc
    · cases rest with
      | nil => exact Option.noConfusion h
      | cons d r2 =>
        dsimp only at h
        split_ifs at h with hd hv
        · obtain ⟨hge, hlen, hchar, hstart⟩ := ih (i + 1) n h
          have hni : 1 ≤ n - i := by omega
          refine ⟨by omega, ?_, ?_, ?_⟩
          · simp only [List.length_cons] at hlen ⊢
            omega
          · rw [show n - i = (n - (i + 1)) + 1 by omega]
            simpa using hchar
          · rw [show n - i + 1 = (n - (i + 1) + 1) + 1 by omega]
            simpa using hstart
        · injection h with h2
          subst h2
          refine ⟨Nat.le_refl _, ?_, ?_, ?_⟩
          · simp
          · simpa using hc
          · simpa using hv
        · obtain ⟨hge, hlen, hchar, hstart⟩ := ih (i + 1) n h
          refine ⟨by omega, ?_, ?_, ?_⟩
          · simp only [List.length_cons] at hlen ⊢
            omega
          · rw [show n - i = (n - (i + 1)) + 1 by omega]
            simpa using hchar
          · rw [show n - i + 1 = (n - (i + 1) + 1) + 1 by omega]
            simpa using hstart
    · obtain ⟨hge, hlen, hchar, hstart⟩ := ih (i + 1) n h
      refine ⟨by omega, ?_, ?_, ?_⟩
      · simp only [List.length_cons]
        omega
      · rw [show n - i = (n - (i + 1)) + 1 by omega]
        simpa using hchar
      · rw [show n - i + 1 = (n - (i + 1) + 1) + 1 by omega]
        simpa using hstart

theorem findNextDollarVar_spec (s : List Char) (n : Nat)
    (h : findNextDollarVar s = some n) :
    n + 1 < s.length ∧ s.getD n ' ' = '$' ∧
      isValidVarStart (s.getD (n + 1) ' ') = true := by
  obtain ⟨_, hlen, hchar, hstart⟩ := findNextDollarVarAux_spec s 0 n h
  simp only [Nat.sub_zero] at hlen hchar hstart
  exact ⟨hlen, hchar, hstart⟩
theorem prefix_getD (pat l : List Char) (k : Nat) (d : Char)
    (h : pat.isPrefixOf l = true) (hk : k < pat.length) :
    l.getD k d = pat.getD k d := by
  have hpre := List.isPrefixOf_iff_prefix.mp h
  have hkl : k < l.length := Nat.lt_of_lt_of_le hk hpre.length_le
  rw [List.getD_eq_getElem l d hkl, List.getD_eq_getElem pat d hk]
  exact (List.IsPrefix.getElem hpre hk).symm

theorem getD_append_left (l m : List Char) (p : Nat) (d : Char)
    (hp : p < l.length) : (l ++ m).getD p d = l.getD p d := by
  rw [List.getD_eq_getElem?_getD, List.getD_eq_getElem?_getD,
    List.getElem?_append, if_pos hp]

theorem getD_append_right (l m : List Char) (q : Nat) (d : Char) :
    (l ++ m).getD (l.length + q) d = m.getD q d := by
  rw [← getD_drop, List.drop_left]

theorem strIndex_open_char (s : List Char) (b : Nat)
    (h : strIndex s openStr = some b) :
    s.getD b ' ' = '$' ∧ b + 2 ≤ s.length := by
  obtain ⟨hpre, hlen⟩ := strIndex_spec s openStr b h
  constructor
  · have hx := prefix_getD openStr (s.drop b) 0 ' ' hpre (by decide)
    rw [getD_drop] at hx
    simpa [openStr] using hx
  · simpa [openStr] using hlen

theorem strIndex_close_char (s2 : List Char) (k : Nat)
    (h : strIndex s2 closeStr = some k) :
    s2.getD k ' ' = '}' ∧ k + 1 ≤ s2.length := by
  obtain ⟨hpre, hlen⟩ := strIndex_spec s2 closeStr k h
  constructor
  · have hx := prefix_getD closeStr (s2.drop k) 0 ' ' hpre (by decide)
    rw [getD_drop] at hx
    simpa [closeStr] using hx
  · simpa [closeStr] using hlen

theorem extractDollarVarName_spec (x : List Char)
    (h : (extractDollarVarName x).1 ≠ []) :
    2 ≤ (extractDollarVarName x).2 ∧ (extractDollarVarName x).2 ≤ x.length ∧
      x.getD ((extractDollarVarName x).2 - 1) ' ' ≠ '\\' := by
  rcases x with _ | ⟨c, rest⟩
  · exact absurd rfl h
  · rcases rest with _ | ⟨d, rest2⟩
    · unfold extractDollarVarName at h
      dsimp only at h
      split_ifs at h <;> exact absurd rfl h
    · unfold extractDollarVarName at h ⊢
      dsimp only at h ⊢
      split_ifs at h ⊢ with h1 h2 h3
      · exact absurd rfl h
      · exact absurd rfl h
      · -- macro case: varEnd = 2 + n
        dsimp only
        refine ⟨by omega, ?_, ?_⟩
        · have hn := (List.takeWhile_prefix (p := isValidVarChar)
            (l := rest2)).length_le
          simp only [List.length_cons]
          omega
        · by_cases hn0 : (rest2.takeWhile isValidVarChar).length = 0
          · rw [hn0]
            show (c :: d :: rest2).getD 1 ' ' ≠ '\\'
            simp only [List.getD_cons_succ, List.getD_cons_zero]
            rw [h3]
            decide
          · obtain ⟨m, hm⟩ : ∃ m,
                (rest2.takeWhile isValidVarChar).length = m + 1 :=
              ⟨(rest2.takeWhile isValidVarChar).length - 1, by omega⟩
            rw [hm]
            rw [show 2 + (m + 1) - 1 = m + 1 + 1 from by omega]
            simp only [List.getD_cons_succ]
            exact isValidVarChar_ne_backslash _
              (takeWhile_getD isValidVarChar rest2 m ' ' (by rw [hm]; omega))
      · -- plain case: varEnd = 1 + n with n ≥ 1
        dsimp only
        have hvd : isValidVarStart d = true := by simpa using h2
        have hvc : isValidVarChar d = true :=
          start_not_at_isChar d hvd (by simpa using h3)
        simp only [List.takeWhile_cons_of_pos hvc, List.length_cons]
        have hle := (List.takeWhile_prefix (p := isValidVarChar)
          (l := rest2)).length_le
        generalize hg : (rest2.takeWhile isValidVarChar).length = m
        rw [hg] at hle
        refine ⟨by omega, by omega, ?_⟩
        rw [show 1 + (m + 1) - 1 = m + 1 from by omega]
        simp only [List.getD_cons_succ]
        rcases m with _ | m2
        · simp only [List.getD_cons_zero]
          exact isValidVarChar_ne_backslash d hvc
        · simp only [List.getD_cons_succ]
          exact isValidVarChar_ne_backslash _
            (takeWhile_getD isValidVarChar rest2 m2 ' ' (by rw [hg]; omega))

theorem compileLoop_ok_one (s : List Char) (i k j : Nat) (vr : VarPos)
    (hk : k ≤ s.length) (hj : j = i + k)
    (h : j ≤ vr.openPos ∧ vr.openPos < vr.closePos ∧
      vr.closePos < j + (List.drop k s).length ∧
      (List.drop k s).getD (vr.openPos - j) ' ' = '$' ∧
      (List.drop k s).getD (vr.closePos - j) ' ' ≠ '\\') :
    i ≤ vr.openPos ∧ vr.openPos < vr.closePos ∧ vr.closePos < i + s.length ∧
      s.getD (vr.openPos - i) ' ' = '$' ∧ s.getD (vr.closePos - i) ' ' ≠ '\\' := by
  subst hj
  obtain ⟨h1, h2, h3, h4, h5⟩ := h
  rw [List.length_drop] at h3
  rw [getD_drop] at h4 h5
  refine ⟨by omega, h2, by omega, ?_, ?_⟩
  · rw [show vr.openPos - i = k + (vr.openPos - (i + k)) from by omega]
    exact h4
  · rw [show vr.closePos - i = k + (vr.closePos - (i + k)) from by omega]
    exact h5

theorem ok_cons_helper (P : VarPos → Prop) (v0 : VarPos) (l : List VarPos)
    (hhd : P v0) (hm : ∀ vr ∈ l, P vr)
    (hnext : ∀ vr ∈ l, v0.closePos + 1 ≤ vr.openPos)
    (hc : List.Chain' (fun a b => a.closePos + 1 ≤ b.openPos) l) :
    (∀ vr ∈ v0 :: l, P vr) ∧
      List.Chain' (fun a b => a.closePos + 1 ≤ b.openPos) (v0 :: l) := by
  refine ⟨fun vr hvr => ?_, ?_⟩
  · rcases List.mem_cons.mp hvr with h | h
    · subst h; exact hhd
    · exact hm vr h
  · rw [List.chain'_cons']
    exact ⟨fun b hb => hnext b (List.mem_of_mem_head? hb), hc⟩

theorem compileLoop_ok : ∀ (fuel : Nat) (s : List Char) (i idx : Nat),
    (∀ vr ∈ compileLoop fuel s i idx,
      i ≤ vr.openPos ∧ vr.openPos < vr.closePos ∧ vr.closePos < i + s.length ∧
        s.getD (vr.openPos - i) ' ' = '$' ∧ s.getD (vr.closePos - i) ' ' ≠ '\\') ∧
    List.Chain' (fun a b => a.closePos + 1 ≤ b.openPos)
      (compileLoop fuel s i idx) := by
  intro fuel
  induction fuel with
  | zero =>
    intro s i idx
    constructor <;> simp [compileLoop]
  | succ fuel ih =>
    intro s i idx
    by_cases hs : s = []
    · subst hs
      constructor <;> simp [compileLoop]
    · simp only [compileLoop]
      rw [if_neg hs]
      simp only [show openStr.length = 2 from rfl, show closeStr.length = 1 from rfl]
      rcases hb : strIndex s openStr with _ | b <;>
        rcases hd : findNextDollarVar s with _ | d <;>
        dsimp only <;>
        try simp only [Bool.false_eq_true, eq_self_iff_true, if_true, if_false]
      -- none / none
      · constructor <;> simp
      -- none / some d : dollar path
      · obtain ⟨hdlen, hdchar, hdstart⟩ := findNextDollarVar_spec s d hd
        by_cases hesc : (decide (d > 0) && decide (s.getD (d - 1) ' ' = '\\')) = true
        · simp only [if_pos hesc]
          obtain ⟨hm, hc⟩ := ih (List.drop (d + 1) s) (i + d + 1) idx
          exact ⟨fun vr hvr => compileLoop_ok_one s i (d + 1) (i + d + 1) vr
            (by omega) (by omega) (hm vr hvr), hc⟩
        · simp only [if_neg hesc]
          by_cases hx1 : (extractDollarVarName (List.drop d s)).1 = []
          · simp only [if_pos hx1]
            obtain ⟨hm, hc⟩ := ih (List.drop (d + 1) s) (i + d + 1) idx
            exact ⟨fun vr hvr => compileLoop_ok_one s i (d + 1) (i + d + 1) vr
              (by omega) (by omega) (hm vr hvr), hc⟩
          · simp only [if_neg hx1]
            by_cases hx2 : (parseVarName
                (extractDollarVarName (List.drop d s)).1).varName = []
            · simp only [if_pos hx2]
              obtain ⟨hm, hc⟩ := ih (List.drop (d + 1) s) (i + d + 1) idx
              exact ⟨fun vr hvr => compileLoop_ok_one s i (d + 1) (i + d + 1) vr
                (by omega) (by omega) (hm vr hvr), hc⟩
            · simp only [if_neg hx2]
              obtain ⟨hE1, hE2, hE3⟩ := extractDollarVarName_spec (List.drop d s) hx1
              rw [List.length_drop] at hE2
              rw [getD_drop] at hE3
              obtain ⟨hm, hc⟩ := ih
                (List.drop (d + (extractDollarVarName (List.drop d s)).2) s)
                (i + d + (extractDollarVarName (List.drop d s)).2) (idx + 1)
              refine ok_cons_helper _ _ _ ?_
                (fun vr hvr => compileLoop_ok_one s i
                  (d + (extractDollarVarName (List.drop d s)).2)
                  (i + d + (extractDollarVarName (List.drop d s)).2) vr
                  (by omega) (by omega) (hm vr hvr))
                (fun vr hvr => ?_) hc
              · refine ⟨?_, ?_, ?_, ?_, ?_⟩ <;> dsimp only
                · omega
                · omega
                · omega
                · rw [show i + d - i = d from by omega]
                  exact hdchar
                · rw [show i + d + (extractDollarVarName (List.drop d s)).2 - 1 - i
                      = d + ((extractDollarVarName (List.drop d s)).2 - 1) from by omega]
                  exact hE3
              · have h1 := (hm vr hvr).1
                dsimp only
                omega
      -- some b / none : brace path
      · obtain ⟨hbchar, hblen⟩ := strIndex_open_char s b hb
        by_cases hesc : (decide (b > 0) && decide (s.getD (b - 1) ' ' = '\\')) = true
        · simp only [if_pos hesc]
          obtain ⟨hm, hc⟩ := ih (List.drop (b + 1) s) (i + b + 1) idx
          exact ⟨fun vr hvr => compileLoop_ok_one s i (b + 1) (i + b + 1) vr
            (by omega) (by omega) (hm vr hvr), hc⟩
        · simp only [if_neg hesc]
          cases hcc : strIndex (List.drop (b + 2) s) closeStr with
          | none =>
            obtain ⟨hm, hc⟩ := ih (List.drop (b + 2) s) (i + (b + 2)) idx
            exact ⟨fun vr hvr => compileLoop_ok_one s i (b + 2) (i + (b + 2)) vr
              (by omega) rfl (hm vr hvr), hc⟩
          | some k =>
            try dsimp only
            obtain ⟨hcchar, hclen2⟩ := strIndex_close_char (List.drop (b + 2) s) k hcc
            rw [List.length_drop] at hclen2
            rw [getD_drop] at hcchar
            by_cases hv : (parseVarName (trimSpace
                (slice s (b + 2) (k + (b + 2))))).varName = []
            · simp only [if_pos hv]
              obtain ⟨hm, hc⟩ := ih (List.drop (k + (b + 2) + 1) s)
                (i + (k + (b + 2)) + 1) idx
              exact ⟨fun vr hvr => compileLoop_ok_one s i (k + (b + 2) + 1)
                (i + (k + (b + 2)) + 1) vr (by omega) (by omega) (hm vr hvr), hc⟩
            · simp only [if_neg hv]
              obtain ⟨hm, hc⟩ := ih (List.drop (k + (b + 2) + 1) s)
                (i + (k + (b + 2)) + 1) (idx + 1)
              refine ok_cons_helper _ _ _ ?_
                (fun vr hvr => compileLoop_ok_one s i (k + (b + 2) + 1)
                  (i + (k + (b + 2)) + 1) vr (by omega) (by omega) (hm vr hvr))
                (fun vr hvr => ?_) hc
              · refine ⟨?_, ?_, ?_, ?_, ?_⟩ <;> dsimp only
                · omega
                · omega
                · omega
                · rw [show i + b - i = b from by omega]
                  exact hbchar
                · rw [show i + (k + (b + 2)) - i = b + 2 + k from by omega]
                  rw [hcchar]
                  decide
              · have h1 := (hm vr hvr).1
                dsimp only
                omega
      -- some b / some d
      · by_cases hbd : b < d
        · simp only [if_pos hbd]
          try dsimp only
          try simp only [Bool.false_eq_true, eq_self_iff_true, if_true, if_false]
          obtain ⟨hbchar, hblen⟩ := strIndex_open_char s b hb
          by_cases hesc : (decide (b > 0) && decide (s.getD (b - 1) ' ' = '\\')) = true
          · simp only [if_pos hesc]
            obtain ⟨hm, hc⟩ := ih (List.drop (b + 1) s) (i + b + 1) idx
            exact ⟨fun vr hvr => compileLoop_ok_one s i (b + 1) (i + b + 1) vr
              (by omega) (by omega) (hm vr hvr), hc⟩
          · simp only [if_neg hesc]
            cases hcc : strIndex (List.drop (b + 2) s) closeStr with
            | none =>
              obtain ⟨hm, hc⟩ := ih (List.drop (b + 2) s) (i + (b + 2)) idx
              exact ⟨fun vr hvr => compileLoop_ok_one s i (b + 2) (i + (b + 2)) vr
                (by omega) rfl (hm vr hvr), hc⟩
            | some k =>
              try dsimp only
              obtain ⟨hcchar, hclen2⟩ := strIndex_close_char (List.drop (b + 2) s) k hcc
              rw [List.length_drop] at hclen2
              rw [getD_drop] at hcchar
              by_cases hv : (parseVarName (trimSpace
                  (slice s (b + 2) (k + (b + 2))))).varName = []
              · simp only [if_pos hv]
                obtain ⟨hm, hc⟩ := ih (List.drop (k + (b + 2) + 1) s)
                  (i + (k + (b + 2)) + 1) idx
                exact ⟨fun vr hvr => compileLoop_ok_one s i (k + (b + 2) + 1)
                  (i + (k + (b + 2)) + 1) vr (by omega) (by omega) (hm vr hvr), hc⟩
              · simp only [if_neg hv]
                obtain ⟨hm, hc⟩ := ih (List.drop (k + (b + 2) + 1) s)
                  (i + (k + (b + 2)) + 1) (idx + 1)
                refine ok_cons_helper _ _ _ ?_
                  (fun vr hvr => compileLoop_ok_one s i (k + (b + 2) + 1)
                    (i + (k + (b + 2)) + 1) vr (by omega) (by omega) (hm vr hvr))
                  (fun vr hvr => ?_) hc
                · refine ⟨?_, ?_, ?_, ?_, ?_⟩ <;> dsimp only
                  · omega
                  · omega
                  · omega
                  · rw [show i + b - i = b from by omega]
                    exact hbchar
                  · rw [show i + (k + (b + 2)) - i = b + 2 + k from by omega]
                    rw [hcchar]
                    decide
                · have h1 := (hm vr hvr).1
                  dsimp only
                  omega
        · simp only [if_neg hbd]
          try dsimp only
          try simp only [Bool.false_eq_true, eq_self_iff_true, if_true, if_false]
          obtain ⟨hdlen, hdchar, hdstart⟩ := findNextDollarVar_spec s d hd
          by_cases hesc : (decide (d > 0) && decide (s.getD (d - 1) ' ' = '\\')) = true
          · simp only [if_pos hesc]
            obtain ⟨hm, hc⟩ := ih (List.drop (d + 1) s) (i + d + 1) idx
            exact ⟨fun vr hvr => compileLoop_ok_one s i (d + 1) (i + d + 1) vr
              (by omega) (by omega) (hm vr hvr), hc⟩
          · simp only [if_neg hesc]
            by_cases hx1 : (extractDollarVarName (List.drop d s)).1 = []
            · simp only [if_pos hx1]
              obtain ⟨hm, hc⟩ := ih (List.drop (d + 1) s) (i + d + 1) idx
              exact ⟨fun vr hvr => compileLoop_ok_one s i (d + 1) (i + d + 1) vr
                (by omega) (by omega) (hm vr hvr), hc⟩
            · simp only [if_neg hx1]
              by_cases hx2 : (parseVarName
                  (extractDollarVarName (List.drop d s)).1).varName = []
              · simp only [if_pos hx2]
                obtain ⟨hm, hc⟩ := ih (List.drop (d + 1) s) (i + d + 1) idx
                exact ⟨fun vr hvr => compileLoop_ok_one s i (d + 1) (i + d + 1) vr
                  (by omega) (by omega) (hm vr hvr), hc⟩
              · simp only [if_neg hx2]
                obtain ⟨hE1, hE2, hE3⟩ := extractDollarVarName_spec (List.drop d s) hx1
                rw [List.length_drop] at hE2
                rw [getD_drop] at hE3
                obtain ⟨hm, hc⟩ := ih
                  (List.drop (d + (extractDollarVarName (List.drop d s)).2) s)
                  (i + d + (extractDollarVarName (List.drop d s)).2) (idx + 1)
                refine ok_cons_helper _ _ _ ?_
                  (fun vr hvr => compileLoop_ok_one s i
                    (d + (extractDollarVarName (List.drop d s)).2)
                    (i + d + (extractDollarVarName (List.drop d s)).2) vr
                    (by omega) (by omega) (hm vr hvr))
                  (fun vr hvr => ?_) hc
                · refine ⟨?_, ?_, ?_, ?_, ?_⟩ <;> dsimp only
                  · omega
                  · omega
                  · omega
                  · rw [show i + d - i = d from by omega]
                    exact hdchar
                  · rw [show i + d + (extractDollarVarName (List.drop d s)).2 - 1 - i
                        = d + ((extractDollarVarName (List.drop d s)).2 - 1) from by omega]
                    exact hE3
                · have h1 := (hm vr hvr).1
                  dsimp only
                  omega
theorem escStep_getD (E rest : List Char) (p : Nat) (hne : p ≠ E.length) :
    (E ++ '$' :: rest).getD (if p > E.length then p - 1 else p) ' '
      = (E ++ '\\' :: '$' :: rest).getD p ' ' := by
  by_cases hp : p > E.length
  · rw [if_pos hp]
    obtain ⟨q, rfl⟩ : ∃ q, p = E.length + (q + 1) :=
      ⟨p - E.length - 1, by omega⟩
    rw [show E.length + (q + 1) - 1 = E.length + q from by omega]
    rw [getD_append_right, getD_append_right]
    rw [List.getD_cons_succ]
  · rw [if_neg hp]
    have hlt : p < E.length := by omega
    rw [getD_append_left _ _ _ _ hlt, getD_append_left _ _ _ _ hlt]

theorem escStep_okPos (E rest : List Char) (vr : VarPos)
    (h : okPos (E ++ '\\' :: '$' :: rest) vr) :
    okPos (E ++ '$' :: rest)
      { vr with
        openPos := if vr.openPos > E.length then vr.openPos - 1 else vr.openPos,
        closePos := if vr.closePos > E.length then vr.closePos - 1 else vr.closePos } := by
  unfold okPos at h ⊢
  obtain ⟨h1, h2, h3, h4⟩ := h
  have hVi : (E ++ '\\' :: '$' :: rest).getD E.length ' ' = '\\' := by
    have hx := getD_append_right E ('\\' :: '$' :: rest) 0 ' '
    simpa using hx
  have ho : vr.openPos ≠ E.length := by
    intro he
    rw [he, hVi] at h3
    exact absurd h3 (by decide)
  have hc : vr.closePos ≠ E.length := by
    intro he
    rw [he] at h4
    exact h4 hVi
  have hlen : (E ++ '\\' :: '$' :: rest).length = E.length + 2 + rest.length := by
    simp only [List.length_append, List.length_cons]
    omega
  have hlen2 : (E ++ '$' :: rest).length = E.length + 1 + rest.length := by
    simp only [List.length_append, List.length_cons]
    omega
  rw [hlen] at h2
  refine ⟨?_, ?_, ?_, ?_⟩
  · dsimp only
    split_ifs <;> omega
  · dsimp only
    rw [hlen2]
    split_ifs <;> omega
  · dsimp only
    rw [escStep_getD E rest vr.openPos ho]
    exact h3
  · dsimp only
    rw [escStep_getD E rest vr.closePos hc]
    exact h4

theorem chain_map_adj (i : Nat) : ∀ (ps : List VarPos),
    (∀ vr ∈ ps, vr.openPos ≠ i ∧ vr.closePos ≠ i) →
    List.Chain' (fun a b => a.closePos + 1 ≤ b.openPos) ps →
    List.Chain' (fun a b =>
      (if a.closePos > i then a.closePos - 1 else a.closePos) + 1 ≤
        (if b.openPos > i then b.openPos - 1 else b.openPos)) ps := by
  intro ps
  induction ps with
  | nil => intro _ _; exact List.chain'_nil
  | cons a t ih =>
    intro hne hch
    rcases t with _ | ⟨b, t2⟩
    · simp
    · rw [List.chain'_cons] at hch ⊢
      refine ⟨?_, ih (fun vr hvr => hne vr (List.mem_cons_of_mem a hvr)) hch.2⟩
      have ha := (hne a (List.mem_cons_self a _)).2
      have hb := (hne b (List.mem_cons_of_mem a (List.mem_cons_self b _))).1
      have hr := hch.1
      split_ifs <;> omega

theorem procEsc_cons_generic (c : Char) (rest0 E : List Char) (ps : List VarPos)
    (hnodel : ∀ (r : List Char), c = '\\' → rest0 = '$' :: r → False)
    (ih : (∀ vr ∈ (processEscapesLoop rest0 (E ++ [c]).length ps).2,
        okPos ((E ++ [c]) ++ (processEscapesLoop rest0 (E ++ [c]).length ps).1) vr) ∧
      List.Chain' (fun a b => a.closePos + 1 ≤ b.openPos)
        (processEscapesLoop rest0 (E ++ [c]).length ps).2) :
    (∀ vr ∈ (processEscapesLoop (c :: rest0) E.length ps).2,
      okPos (E ++ (processEscapesLoop (c :: rest0) E.length ps).1) vr) ∧
    List.Chain' (fun a b => a.closePos + 1 ≤ b.openPos)
      (processEscapesLoop (c :: rest0) E.length ps).2 := by
  rw [processEscapesLoop.eq_3 E.length ps c rest0 hnodel]
  rw [show (E ++ [c]).length = E.length + 1 from by simp] at ih
  cases hrec : processEscapesLoop rest0 (E.length + 1) ps with
  | mk out ps2 =>
    rw [hrec] at ih
    dsimp only
    constructor
    · intro vr hvr
      have hx := ih.1 vr hvr
      rwa [List.append_assoc, List.singleton_append] at hx
    · exact ih.2

theorem procEsc_ok : ∀ (n : Nat) (u E : List Char) (ps : List VarPos),
    u.length ≤ n →
    (∀ vr ∈ ps, okPos (E ++ u) vr) →
    List.Chain' (fun a b => a.closePos + 1 ≤ b.openPos) ps →
    (∀ vr ∈ (processEscapesLoop u E.length ps).2,
      okPos (E ++ (processEscapesLoop u E.length ps).1) vr) ∧
    List.Chain' (fun a b => a.closePos + 1 ≤ b.openPos)
      (processEscapesLoop u E.length ps).2 := by
  intro n
  induction n with
  | zero =>
    intro u E ps hn hok hch
    have hu : u = [] := List.length_eq_zero.mp (Nat.le_zero.mp hn)
    subst hu
    rw [processEscapesLoop.eq_1]
    exact ⟨by simpa using hok, hch⟩
  | succ n ih =>
    intro u E ps hn hok hch
    rcases u with _ | ⟨c, rest0⟩
    · rw [processEscapesLoop.eq_1]
      exact ⟨by simpa using hok, hch⟩
    · rcases rest0 with _ | ⟨d, rest⟩
      · exact procEsc_cons_generic c [] E ps (fun r _ h => List.noConfusion h)
          (ih [] (E ++ [c]) ps (by simp)
            (fun vr hvr => by
              rw [List.append_nil]
              exact hok vr hvr) hch)
      · by_cases hc : c = '\\'
        · by_cases hd2 : d = '$'
          · subst hc
            subst hd2
            have hVi : (E ++ '\\' :: '$' :: rest).getD E.length ' ' = '\\' := by
              have hx := getD_append_right E ('\\' :: '$' :: rest) 0 ' '
              simpa using hx
            have hne : ∀ vr ∈ ps,
                vr.openPos ≠ E.length ∧ vr.closePos ≠ E.length := by
              intro vr hvr
              have hx := hok vr hvr
              unfold okPos at hx
              obtain ⟨h1, h2, h3, h4⟩ := hx
              constructor
              · intro he
                rw [he, hVi] at h3
                exact absurd h3 (by decide)
              · intro he
                rw [he] at h4
                exact h4 hVi
            rw [processEscapesLoop.eq_2]
            cases hrec : processEscapesLoop rest (E.length + 1)
                (List.map (fun p =>
                  { p with
                    openPos := if p.openPos > E.length then p.openPos - 1 else p.openPos,
                    closePos := if p.closePos > E.length then p.closePos - 1 else p.closePos }) ps) with
            | mk out ps3 =>
              dsimp only
              have hih := ih rest (E ++ ['$'])
                (List.map (fun p =>
                  { p with
                    openPos := if p.openPos > E.length then p.openPos - 1 else p.openPos,
                    closePos := if p.closePos > E.length then p.closePos - 1 else p.closePos }) ps)
                (by simp only [List.length_cons] at hn; omega)
                (by
                  intro vr2 hvr2
                  obtain ⟨vr, hvr, rfl⟩ := List.mem_map.mp hvr2
                  have hstep := escStep_okPos E rest vr (hok vr hvr)
                  rw [List.append_assoc, List.singleton_append]
                  exact hstep)
                (by
                  rw [List.chain'_map]
                  exact chain_map_adj E.length ps hne hch)
              rw [show (E ++ ['$']).length = E.length + 1 from by simp] at hih
              rw [hrec] at hih
              constructor
              · intro vr hvr
                have hx := hih.1 vr hvr
                rwa [List.append_assoc, List.singleton_append] at hx
              · exact hih.2
          · exact procEsc_cons_generic c (d :: rest) E ps
              (fun r h1 h2 => hd2 (by injection h2))
              (ih (d :: rest) (E ++ [c]) ps
                (by simp only [List.length_cons] at hn ⊢; omega)
                (fun vr hvr => by
                  rw [List.append_assoc, List.singleton_append]
                  exact hok vr hvr) hch)
        · exact procEsc_cons_generic c (d :: rest) E ps (fun r h1 _ => hc h1)
            (ih (d :: rest) (E ++ [c]) ps
              (by simp only [List.length_cons] at hn ⊢; omega)
              (fun vr hvr => by
                rw [List.append_assoc, List.singleton_append]
                exact hok vr hvr) hch)

theorem Compile_okPositions (s : List Char) :
    okPositions (Compile s).template (Compile s).varPositions := by
  have h0 := compileLoop_ok s.length s 0 0
  have hok : ∀ vr ∈ compileLoop s.length s 0 0, okPos s vr := by
    intro vr hvr
    obtain ⟨h1, h2, h3, h4, h5⟩ := h0.1 vr hvr
    simp only [Nat.sub_zero] at h4 h5
    exact ⟨h2, by omega, h4, h5⟩
  have hpe := procEsc_ok s.length s [] (compileLoop s.length s 0 0)
    (Nat.le_refl _) (by simpa using hok) h0.2
  simp only [List.length_nil, List.nil_append] at hpe
  show okPositions (processEscapesLoop s 0 (compileLoop s.length s 0 0)).1
    (processEscapesLoop s 0 (compileLoop s.length s 0 0)).2
  exact ⟨hpe.1, hpe.2⟩
theorem okPos_append (b x : List Char) (vr : VarPos) (h : okPos b vr) :
    okPos (b ++ x) vr := by
  unfold okPos at h ⊢
  obtain ⟨h1, h2, h3, h4⟩ := h
  have hopen : vr.openPos < b.length := by omega
  refine ⟨h1, ?_, ?_, ?_⟩
  · simp only [List.length_append]
    omega
  · rw [getD_append_left _ _ _ _ hopen]
    exact h3
  · rw [getD_append_left _ _ _ _ h2]
    exact h4

theorem getVarEndPos_eq (s : List Char) (vr : VarPos) :
    getVarEndPos s vr = vr.closePos + 1 := by
  unfold getVarEndPos
  split_ifs <;> rfl

theorem isCharI_nat (s : List Char) (p : Nat) (ch : Char)
    (h : isCharI s (p : Int) ch = true) : p < s.length ∧ s.getD p ' ' = ch := by
  unfold isCharI at h
  simp only [Bool.and_eq_true, decide_eq_true_eq] at h
  obtain ⟨⟨h1, h2⟩, h3⟩ := h
  constructor
  · exact_mod_cast h2
  · simpa using h3

theorem slice_getD (s : List Char) (lo hi q : Nat) (d : Char)
    (h1 : lo + q < hi) :
    (slice s lo hi).getD q d = s.getD (lo + q) d := by
  unfold slice
  rw [getD_drop]
  rw [List.getD_eq_getElem?_getD, List.getD_eq_getElem?_getD,
    List.getElem?_take, if_pos h1]

theorem slice_length (s : List Char) (lo hi : Nat) (h : hi ≤ s.length) :
    (slice s lo hi).length = hi - lo := by
  unfold slice
  rw [List.length_drop, List.length_take]
  omega

theorem chain_ge (v0 : VarPos) : ∀ (l : List VarPos),
    (∀ vr ∈ l, vr.openPos < vr.closePos) →
    List.Chain' (fun a b => a.closePos + 1 ≤ b.openPos) (v0 :: l) →
    ∀ w ∈ l, v0.closePos + 1 ≤ w.openPos := by
  intro l
  induction l generalizing v0 with
  | nil => intro _ _ w hw; cases hw
  | cons a t ih =>
    intro hok hch w hw
    rw [List.chain'_cons] at hch
    rcases List.mem_cons.mp hw with h | h
    · subst h
      exact hch.1
    · have ha := hok a (List.mem_cons_self a _)
      have hx := ih a (fun vr hvr => hok vr (List.mem_cons_of_mem a hvr)) hch.2 w h
      have hr := hch.1
      omega

theorem chain_append_one (l : List VarPos) (x : VarPos)
    (hch : List.Chain' (fun a b => a.closePos + 1 ≤ b.openPos) l)
    (hlast : ∀ w ∈ l, w.closePos + 1 ≤ x.openPos) :
    List.Chain' (fun a b => a.closePos + 1 ≤ b.openPos) (l ++ [x]) := by
  rw [List.chain'_append]
  refine ⟨hch, List.chain'_singleton _, ?_⟩
  intro a ha y hy
  simp only [List.head?_cons, Option.mem_def, Option.some.injEq] at hy
  subst hy
  exact hlast a (List.mem_of_mem_getLast? ha)

theorem applyResolved_inv (s : List Char) (prev : Option VarPos) (vr : VarPos)
    (st st2 : LoopSt) (val0 : List Char)
    (hvr : okPos s vr)
    (hb : ∀ w ∈ st.missing, okPos st.b w)
    (hch : List.Chain' (fun a b => a.closePos + 1 ≤ b.openPos) st.missing)
    (heq : applyResolved s prev vr st val0 = st2) :
    st2.oldIdx ≤ s.length ∧ (∀ w ∈ st2.missing, okPos st2.b w) ∧
    List.Chain' (fun a b => a.closePos + 1 ≤ b.openPos) st2.missing ∧
    vr.closePos + 1 ≤ st2.oldIdx ∧ st2.oldIdx ≤ vr.closePos + 2 ∧
    (st2.oldIdx = vr.closePos + 2 → s.getD (vr.closePos + 1) ' ' = '"') := by
  unfold applyResolved at heq
  rw [getVarEndPos_eq] at heq
  unfold okPos at hvr
  obtain ⟨hv1, hv2, hv3, hv4⟩ := hvr
  dsimp only at heq
  split_ifs at heq with hq hq2 hq3
  · subst heq
    simp only [Bool.and_eq_true] at hq
    obtain ⟨⟨⟨hn1, hn2⟩, hn3⟩, hn4⟩ := hq
    obtain ⟨hlt, hquote⟩ := isCharI_nat s (vr.closePos + 1) '"' hn3
    dsimp only
    refine ⟨by omega, ?_, hch, by omega, by omega, fun _ => hquote⟩
    intro w hw
    rw [List.append_assoc]
    exact okPos_append _ _ _ (hb w hw)
  · subst heq
    simp only [Bool.and_eq_true] at hq
    obtain ⟨⟨⟨hn1, hn2⟩, hn3⟩, hn4⟩ := hq
    obtain ⟨hlt, hquote⟩ := isCharI_nat s (vr.closePos + 1) '"' hn3
    dsimp only
    refine ⟨by omega, ?_, hch, by omega, by omega, fun _ => hquote⟩
    intro w hw
    rw [List.append_assoc]
    exact okPos_append _ _ _ (hb w hw)
  · subst heq
    dsimp only
    refine ⟨by omega, ?_, hch, by omega, by omega, fun hx => absurd hx (by omega)⟩
    intro w hw
    rw [List.append_assoc]
    exact okPos_append _ _ _ (hb w hw)
  · subst heq
    dsimp only
    refine ⟨by omega, ?_, hch, by omega, by omega, fun hx => absurd hx (by omega)⟩
    intro w hw
    rw [List.append_assoc]
    exact okPos_append _ _ _ (hb w hw)

theorem applyStep_inv (env : Env) (v : VarMap) (b1 b2 b3 : Bool) (s : List Char)
    (prev : Option VarPos) (vr : VarPos) (st st2 : LoopSt)
    (hvr : okPos s vr) (hold : st.oldIdx ≤ vr.openPos)
    (hb : ∀ w ∈ st.missing, okPos st.b w)
    (hch : List.Chain' (fun a b => a.closePos + 1 ≤ b.openPos) st.missing)
    (hstep : applyStep env v b1 b2 b3 s prev vr st = Except.ok st2) :
    st2.oldIdx ≤ s.length ∧ (∀ w ∈ st2.missing, okPos st2.b w) ∧
    List.Chain' (fun a b => a.closePos + 1 ≤ b.openPos) st2.missing ∧
    vr.closePos + 1 ≤ st2.oldIdx ∧ st2.oldIdx ≤ vr.closePos + 2 ∧
    (st2.oldIdx = vr.closePos + 2 → s.getD (vr.closePos + 1) ' ' = '"') := by
  have hvr2 := hvr
  unfold okPos at hvr2
  obtain ⟨hv1, hv2, hv3, hv4⟩ := hvr2
  unfold applyStep at hstep
  cases hres : resolveVal env v b3 vr with
  | error e =>
    simp only [hres] at hstep
    exact Except.noConfusion hstep
  | ok o =>
    simp only [hres] at hstep
    cases o with
    | some val0 =>
      dsimp only at hstep
      injection hstep with h2
      exact applyResolved_inv s prev vr st st2 val0 hvr hb hch h2
    | none =>
      dsimp only at hstep
      split_ifs at hstep with hdfl hreq
      · injection hstep with h2
        exact applyResolved_inv s prev vr st st2 vr.defaultValue hvr hb hch h2
      · injection hstep with h2
        subst h2
        rw [getVarEndPos_eq]
        dsimp only
        have hslen : (slice s st.oldIdx (vr.closePos + 1)).length
            = vr.closePos + 1 - st.oldIdx := slice_length s _ _ (by omega)
        refine ⟨by omega, ?_, ?_, by omega, by omega, fun hx => absurd hx (by omega)⟩
        · intro w hw
          rcases List.mem_append.mp hw with hw1 | hw1
          · exact okPos_append _ _ _ (hb w hw1)
          · have hw2 : w = { vr with
                openPos := st.b.length + vr.openPos - st.oldIdx,
                closePos := st.b.length + vr.closePos - st.oldIdx } :=
              List.mem_singleton.mp hw1
            subst hw2
            unfold okPos
            dsimp only
            refine ⟨by omega, ?_, ?_, ?_⟩
            · simp only [List.length_append, hslen]
              omega
            · rw [show st.b.length + vr.openPos - st.oldIdx
                  = st.b.length + (vr.openPos - st.oldIdx) from by omega]
              rw [getD_append_right]
              rw [slice_getD s st.oldIdx (vr.closePos + 1)
                (vr.openPos - st.oldIdx) ' ' (by omega)]
              rw [show st.oldIdx + (vr.openPos - st.oldIdx) = vr.openPos from by omega]
              exact hv3
            · rw [show st.b.length + vr.closePos - st.oldIdx
                  = st.b.length + (vr.closePos - st.oldIdx) from by omega]
              rw [getD_append_right]
              rw [slice_getD s st.oldIdx (vr.closePos + 1)
                (vr.closePos - st.oldIdx) ' ' (by omega)]
              rw [show st.oldIdx + (vr.closePos - st.oldIdx) = vr.closePos from by omega]
              exact hv4
        · refine chain_append_one _ _ hch ?_
          intro w hw
          have hbw := hb w hw
          unfold okPos at hbw
          dsimp only
          omega

theorem applyLoop_inv (env : Env) (v : VarMap) (b1 b2 b3 : Bool) (s : List Char) :
    ∀ (l : List VarPos) (prev : Option VarPos) (st st2 : LoopSt),
    (∀ w ∈ l, okPos s w ∧ st.oldIdx ≤ w.openPos) →
    List.Chain' (fun a b => a.closePos + 1 ≤ b.openPos) l →
    st.oldIdx ≤ s.length →
    (∀ w ∈ st.missing, okPos st.b w) →
    List.Chain' (fun a b => a.closePos + 1 ≤ b.openPos) st.missing →
    applyLoop env v b1 b2 b3 s l prev st = Except.ok st2 →
    st2.oldIdx ≤ s.length ∧ (∀ w ∈ st2.missing, okPos st2.b w) ∧
    List.Chain' (fun a b => a.closePos + 1 ≤ b.openPos) st2.missing := by
  intro l
  induction l with
  | nil =>
    intro prev st st2 _ _ hidx hb hch hloop
    unfold applyLoop at hloop
    injection hloop with h2
    subst h2
    exact ⟨hidx, hb, hch⟩
  | cons vr rest ih =>
    intro prev st st2 hl hchl hidx hb hch hloop
    unfold applyLoop at hloop
    cases hstep : applyStep env v b1 b2 b3 s prev vr st with
    | error e =>
      simp only [hstep] at hloop
      exact Except.noConfusion hloop
    | ok stm =>
      simp only [hstep] at hloop
      obtain ⟨hvr, holdv⟩ := hl vr (List.mem_cons_self vr _)
      obtain ⟨g1, g2, g3, g4, g5, g6⟩ :=
        applyStep_inv env v b1 b2 b3 s prev vr st stm hvr holdv hb hch hstep
      refine ih (some vr) stm st2 ?_ (List.chain'_cons'.mp hchl).2 g1 g2 g3 hloop
      intro w hw
      obtain ⟨hokw, _⟩ := hl w (List.mem_cons_of_mem vr hw)
      refine ⟨hokw, ?_⟩
      have hge := chain_ge vr rest
        (fun x hx => by
          have hx2 := (hl x (List.mem_cons_of_mem vr hx)).1
          unfold okPos at hx2
          exact hx2.1) hchl w hw
      by_cases heq2 : stm.oldIdx = vr.closePos + 2
      · have hq := g6 heq2
        have hokw2 := hokw
        unfold okPos at hokw2
        by_cases hw2 : w.openPos = vr.closePos + 1
        · rw [hw2, hq] at hokw2
          exact absurd hokw2.2.2.1 (by decide)
        · omega
      · omega

theorem apply_okPositions (c : Template) (v : VarMap) (b1 b2 b3 : Bool)
    (env : Env) (t2 : Template)
    (hok : okPositions c.template c.varPositions)
    (happ : c.apply v b1 b2 b3 env = Except.ok t2) :
    okPositions t2.template t2.varPositions := by
  unfold Template.apply at happ
  split_ifs at happ with h0
  · injection happ with h2
    subst h2
    exact hok
  · unfold okPositions at hok
    cases hloop : applyLoop env v b1 b2 b3 c.template c.varPositions
        none ⟨[], 0, [], []⟩ with
    | error e =>
      simp only [hloop] at happ
      exact Except.noConfusion happ
    | ok st =>
      simp only [hloop] at happ
      injection happ with h2
      subst h2
      obtain ⟨g1, g2, g3⟩ := applyLoop_inv env v b1 b2 b3 c.template
        c.varPositions none ⟨[], 0, [], []⟩ st
        (fun w hw => ⟨hok.1 w hw, Nat.zero_le _⟩) hok.2 (Nat.zero_le _)
        (fun w hw => absurd hw (List.not_mem_nil w)) List.chain'_nil hloop
      unfold okPositions
      dsimp only
      exact ⟨fun w hw => okPos_append _ _ _ (g2 w hw), g3⟩

theorem PartialApply_okPositions (c : Template) (v : VarMap) (env : Env)
    (t2 : Template)
    (hok : okPositions c.template c.varPositions)
    (h : c.PartialApply v env = Outcome.ok t2) :
    okPositions t2.template t2.varPositions := by
  unfold Template.PartialApply at h
  split_ifs at h with h0
  · injection h with h2
    subst h2
    exact hok
  · cases happ : c.apply v false false false env with
    | ok t3 =>
      simp only [happ] at h
      injection h with h2
      subst h2
      exact apply_okPositions c v false false false env _ hok happ
    | error e =>
      simp only [happ] at h
      exact Outcome.noConfusion h

theorem Apply_okPositions (c : Template) (v : VarMap) (opts : ApplyOptions)
    (env : Env) (t2 : Template)
    (hok : okPositions c.template c.varPositions)
    (h : c.Apply v opts env = Outcome.ok t2) :
    okPositions t2.template t2.varPositions := by
  unfold Template.Apply at h
  split_ifs at h with h0
  · injection h with h2
    subst h2
    exact hok
  · cases happ : c.apply v opts.ValidateRequired opts.ApplyDefault
        opts.ApplyMacro env with
    | ok t3 =>
      simp only [happ] at h
      injection h with h2
      subst h2
      exact apply_okPositions c v _ _ _ env _ hok happ
    | error e =>
      simp only [happ] at h
      exact Outcome.noConfusion h

theorem Reach_okPositions (t : Template) (h : Reach t) :
    okPositions t.template t.varPositions := by
  induction h with
  | compile s => exact Compile_okPositions s
  | stepPartial t v env t2 _ hstep ih =>
    exact PartialApply_okPositions t v env t2 ih hstep
  | stepApply t v opts env t2 _ hstep ih =>
    exact Apply_okPositions t v opts env t2 ih hstep
/-- C9: every descriptor of every template the library produces — built by
`Compile` or derived through a successful `PartialApply`/`Apply`, after
escape normalization has shifted offsets — satisfies
`openPos < closePos`, its close offset lies inside the owning template's
text, and its open offset indexes the placeholder's `$` in that exact
text. -/
theorem claim_C9 (t : Template) (h : Reach t) :
    ∀ vr ∈ t.varPositions,
      vr.openPos < vr.closePos ∧ vr.closePos < t.template.length ∧
        t.template.getD vr.openPos ' ' = '$' := by
  intro vr hvr
  have hx := (Reach_okPositions t h).1 vr hvr
  unfold okPos at hx
  exact ⟨hx.1, hx.2.1, hx.2.2.1⟩

/-- C9, witness: the compiled template of `"hi $\x7bname\x7d and $x"` is
reachable and all its descriptors' offsets are valid for its text. -/
theorem claim_C9_witness :
    Reach (Compile (str "hi $\x7bname\x7d and $x")) ∧
      ∀ vr ∈ (Compile (str "hi $\x7bname\x7d and $x")).varPositions,
        vr.openPos < vr.closePos ∧
          vr.closePos < (Compile (str "hi $\x7bname\x7d and $x")).template.length ∧
          (Compile (str "hi $\x7bname\x7d and $x")).template.getD vr.openPos ' ' = '$' :=
  ⟨Reach.compile (str "hi $\x7bname\x7d and $x"),
    claim_C9 (Compile (str "hi $\x7bname\x7d and $x"))
      (Reach.compile (str "hi $\x7bname\x7d and $x"))⟩

theorem slice_append_left (b ext : List Char) (lo hi : Nat) (h : hi ≤ b.length) :
    slice (b ++ ext) lo hi = slice b lo hi := by
  unfold slice
  rw [List.take_append_of_le_length h]

theorem slice_take (s : List Char) (lo hi r : Nat) (h : lo + r ≤ hi) :
    (slice s lo hi).take r = slice s lo (lo + r) := by
  unfold slice
  rw [List.take_drop]
  rw [List.take_take]
  rw [Nat.min_eq_left h]

theorem slice_to_length (l : List Char) (lo : Nat) :
    slice l lo l.length = l.drop lo := by
  unfold slice
  rw [List.take_length]

theorem lookupVar_append_some (v1 v2 : VarMap) (n x : List Char)
    (h : lookupVar v1 n = some x) : lookupVar (v1 ++ v2) n = some x := by
  induction v1 with
  | nil => exact absurd h (by simp [lookupVar])
  | cons p rest ih =>
    rcases p with ⟨k, val⟩
    rw [List.cons_append]
    have h2 : (if k = n then some val else lookupVar rest n) = some x := h
    show (if k = n then some val else lookupVar (rest ++ v2) n) = some x
    by_cases hk : k = n
    · rw [if_pos hk] at h2 ⊢
      exact h2
    · rw [if_neg hk] at h2 ⊢
      exact ih h2

theorem lookupVar_append_none (v1 v2 : VarMap) (n : List Char)
    (h : lookupVar v1 n = none) : lookupVar (v1 ++ v2) n = lookupVar v2 n := by
  induction v1 with
  | nil => rfl
  | cons p rest ih =>
    rcases p with ⟨k, val⟩
    rw [List.cons_append]
    have h2 : (if k = n then some val else lookupVar rest n) = none := h
    show (if k = n then some val else lookupVar (rest ++ v2) n) = lookupVar v2 n
    by_cases hk : k = n
    · rw [if_pos hk] at h2
      exact Option.noConfusion h2
    · rw [if_neg hk] at h2 ⊢
      exact ih h2

theorem insertVar_ne_nil (x : List Char) (l : List (List Char)) :
    insertVar x l ≠ [] := by
  cases l with
  | nil => simp [insertVar]
  | cons y ys =>
    unfold insertVar
    split_ifs <;> simp

theorem getVars_ne_nil (n : List Char) (ns : List (List Char)) :
    getVars (n :: ns) ≠ [] :=
  insertVar_ne_nil n (getVars ns)

theorem resolveVal_plain (env : Env) (v : VarMap) (vr : VarPos)
    (hf : vr.isFile = false) (hb : vr.isBash = false) (hm : vr.isMacro = false) :
    resolveVal env v false vr = Except.ok (lookupVar v vr.varName) := by
  unfold resolveVal
  rw [hf, hb, hm]
  rfl

theorem resolveVal_macro_eq (env : Env) (v : VarMap) (vr : VarPos)
    (hf : vr.isFile = false) (hb : vr.isBash = false) (hm : vr.isMacro = true) :
    resolveVal env v false vr = Except.ok none := by
  unfold resolveVal
  rw [hf, hb, hm]
  rfl

theorem resolveVal_none_flags (env : Env) (v : VarMap) (vr : VarPos)
    (h : resolveVal env v false vr = Except.ok none) :
    vr.isFile = false ∧ vr.isBash = false := by
  unfold resolveVal at h
  by_cases hf : vr.isFile = true
  · rw [if_pos hf] at h
    cases hx : env.readFile vr.varName with
    | some data =>
      rw [hx] at h
      injection h with h2
      exact Option.noConfusion h2
    | none =>
      rw [hx] at h
      exact Except.noConfusion h
  · rw [if_neg hf] at h
    by_cases hbb : vr.isBash = true
    · rw [if_pos hbb] at h
      cases hx : env.runBash vr.varName with
      | some o =>
        rw [hx] at h
        injection h with h2
        exact Option.noConfusion h2
      | none =>
        rw [hx] at h
        exact Except.noConfusion h
    · exact ⟨by simpa using hf, by simpa using hbb⟩

theorem resolveVal_error_indep (env : Env) (v w : VarMap) (vr : VarPos)
    (e : ApplyError) (h : resolveVal env v false vr = Except.error e) :
    resolveVal env w false vr = Except.error e := by
  unfold resolveVal at h ⊢
  by_cases h1 : vr.isFile = true
  · rw [if_pos h1] at h ⊢
    exact h
  · rw [if_neg h1] at h ⊢
    by_cases h2 : vr.isBash = true
    · rw [if_pos h2] at h ⊢
      exact h
    · rw [if_neg h2] at h ⊢
      by_cases h3 : vr.isMacro = true
      · rw [if_pos h3] at h
        exact Except.noConfusion h
      · rw [if_neg h3] at h
        exact Except.noConfusion h

theorem resolveVal_some_append (env : Env) (v1 v2 : VarMap) (vr : VarPos)
    (val : List Char) (h : resolveVal env v1 false vr = Except.ok (some val)) :
    resolveVal env (v1 ++ v2) false vr = Except.ok (some val) := by
  unfold resolveVal at h ⊢
  by_cases h1 : vr.isFile = true
  · rw [if_pos h1] at h ⊢
    exact h
  · rw [if_neg h1] at h ⊢
    by_cases h2 : vr.isBash = true
    · rw [if_pos h2] at h ⊢
      exact h
    · rw [if_neg h2] at h ⊢
      by_cases h3 : vr.isMacro = true
      · rw [if_pos h3] at h
        injection h with h4
        exact Option.noConfusion h4
      · rw [if_neg h3] at h ⊢
        injection h with h4
        rw [lookupVar_append_some v1 v2 vr.varName val h4]

theorem applyResolved_nonum (s : List Char) (prev : Option VarPos) (vr : VarPos)
    (st : LoopSt) (val0 : List Char) (hnum : vr.isNumber = false) :
    applyResolved s prev vr st val0 =
      { st with
        b := st.b ++ slice s st.oldIdx vr.openPos ++
          (if (decide (val0 ≠ []) && !vr.isBash && !vr.isFile && vr.isShellQuote) = true
            then quoteShellStr val0 else val0),
        oldIdx := vr.closePos + 1 } := by
  unfold applyResolved
  rw [getVarEndPos_eq]
  dsimp only
  generalize (if (decide (val0 ≠ []) && !vr.isBash && !vr.isFile && vr.isShellQuote) = true
      then quoteShellStr val0 else val0) = valq
  split_ifs with hq
  · rw [hnum] at hq
    simp at hq
  · rfl

theorem applyStep_fff_error (env : Env) (v : VarMap) (s : List Char)
    (prev : Option VarPos) (vr : VarPos) (st : LoopSt) (e : ApplyError)
    (hres : resolveVal env v false vr = Except.error e) :
    applyStep env v false false false s prev vr st = Except.error e := by
  unfold applyStep
  rw [hres]

theorem applyStep_fff_some (env : Env) (v : VarMap) (s : List Char)
    (prev : Option VarPos) (vr : VarPos) (st : LoopSt) (val0 : List Char)
    (hres : resolveVal env v false vr = Except.ok (some val0)) :
    applyStep env v false false false s prev vr st
      = Except.ok (applyResolved s prev vr st val0) := by
  unfold applyStep
  rw [hres]

theorem applyStep_fff_none (env : Env) (v : VarMap) (s : List Char)
    (prev : Option VarPos) (vr : VarPos) (st : LoopSt)
    (hres : resolveVal env v false vr = Except.ok none) :
    applyStep env v false false false s prev vr st = Except.ok
      { b := st.b ++ slice s st.oldIdx (vr.closePos + 1),
        oldIdx := vr.closePos + 1,
        missing := st.missing ++ [{ vr with
          openPos := st.b.length + vr.openPos - st.oldIdx,
          closePos := st.b.length + vr.closePos - st.oldIdx }],
        missingNames := st.missingNames ++ [vr.varName] } := by
  unfold applyStep
  rw [hres]
  dsimp only
  split_ifs with h1 h2
  · simp at h1
  · simp at h2
  · rw [getVarEndPos_eq]

theorem applyStep_prev_irrel (env : Env) (v : VarMap) (s : List Char)
    (prev prev2 : Option VarPos) (vr : VarPos) (st : LoopSt)
    (hnum : vr.isNumber = false) :
    applyStep env v false false false s prev vr st
      = applyStep env v false false false s prev2 vr st := by
  cases hres : resolveVal env v false vr with
  | error e =>
    rw [applyStep_fff_error env v s prev vr st e hres,
      applyStep_fff_error env v s prev2 vr st e hres]
  | ok o =>
    cases o with
    | some val0 =>
      rw [applyStep_fff_some env v s prev vr st val0 hres,
        applyStep_fff_some env v s prev2 vr st val0 hres]
      rw [applyResolved_nonum s prev vr st val0 hnum,
        applyResolved_nonum s prev2 vr st val0 hnum]
    | none =>
      rw [applyStep_fff_none env v s prev vr st hres,
        applyStep_fff_none env v s prev2 vr st hres]

theorem applyLoop_prev_irrel (env : Env) (v : VarMap) (s : List Char) :
    ∀ (l : List VarPos) (prev prev2 : Option VarPos) (st : LoopSt),
    (∀ w ∈ l, w.isNumber = false) →
    applyLoop env v false false false s l prev st
      = applyLoop env v false false false s l prev2 st := by
  intro l
  induction l with
  | nil => intro _ _ _ _; rfl
  | cons vr rest ih =>
    intro prev prev2 st hn
    unfold applyLoop
    rw [applyStep_prev_irrel env v s prev prev2 vr st
      (hn vr (List.mem_cons_self vr _))]

theorem applyStep_text (env : Env) (v : VarMap) (b ext : List Char)
    (prev : Option VarPos) (vr : VarPos) (st : LoopSt)
    (hnum : vr.isNumber = false) (hoc : vr.openPos ≤ vr.closePos)
    (hcl : vr.closePos + 1 ≤ b.length) :
    applyStep env v false false false (b ++ ext) prev vr st
      = applyStep env v false false false b prev vr st := by
  cases hres : resolveVal env v false vr with
  | error e =>
    rw [applyStep_fff_error env v (b ++ ext) prev vr st e hres,
      applyStep_fff_error env v b prev vr st e hres]
  | ok o =>
    cases o with
    | some val0 =>
      rw [applyStep_fff_some env v (b ++ ext) prev vr st val0 hres,
        applyStep_fff_some env v b prev vr st val0 hres]
      rw [applyResolved_nonum (b ++ ext) prev vr st val0 hnum,
        applyResolved_nonum b prev vr st val0 hnum]
      rw [slice_append_left b ext st.oldIdx vr.openPos (by omega)]
    | none =>
      rw [applyStep_fff_none env v (b ++ ext) prev vr st hres,
        applyStep_fff_none env v b prev vr st hres]
      rw [slice_append_left b ext st.oldIdx (vr.closePos + 1) hcl]

theorem applyLoop_text (env : Env) (v : VarMap) (b ext : List Char) :
    ∀ (l : List VarPos) (prev : Option VarPos) (st : LoopSt),
    (∀ w ∈ l, w.isNumber = false ∧ w.openPos ≤ w.closePos ∧
      w.closePos + 1 ≤ b.length) →
    applyLoop env v false false false (b ++ ext) l prev st
      = applyLoop env v false false false b l prev st := by
  intro l
  induction l with
  | nil => intro _ _ _; rfl
  | cons vr rest ih =>
    intro prev st h
    obtain ⟨h1, h2, h3⟩ := h vr (List.mem_cons_self vr _)
    unfold applyLoop
    rw [applyStep_text env v b ext prev vr st h1 h2 h3]
    cases hstep : applyStep env v false false false b prev vr st with
    | error e => rfl
    | ok st2 =>
      exact ih (some vr) st2 (fun w hw => h w (List.mem_cons_of_mem vr hw))
theorem slice_clone (b u : List Char) (q r : Nat) (hq : q ≤ b.length) :
    slice (b ++ u) q (b.length + r) = b.drop q ++ u.take r := by
  unfold slice
  rw [List.take_append]
  rw [List.drop_append_of_le_length hq]

theorem resolveVal_none_append (env : Env) (v1 v2 : VarMap) (vr : VarPos)
    (h : resolveVal env v1 false vr = Except.ok none) :
    resolveVal env (v1 ++ v2) false vr = resolveVal env v2 false vr := by
  obtain ⟨hff, hfb⟩ := resolveVal_none_flags env v1 vr h
  by_cases hm : vr.isMacro = true
  · rw [resolveVal_macro_eq env (v1 ++ v2) vr hff hfb hm,
      resolveVal_macro_eq env v2 vr hff hfb hm]
  · have hm2 : vr.isMacro = false := by simpa using hm
    rw [resolveVal_plain env (v1 ++ v2) vr hff hfb hm2,
      resolveVal_plain env v2 vr hff hfb hm2]
    have hlook : lookupVar v1 vr.varName = none := by
      have hp := resolveVal_plain env v1 vr hff hfb hm2
      rw [hp] at h
      exact Except.ok.inj h
    rw [lookupVar_append_none v1 v2 vr.varName hlook]

theorem resolveVal_no_side (env : Env) (v : VarMap) (vr : VarPos)
    (hff : vr.isFile = false) (hfb : vr.isBash = false) :
    ∃ o, resolveVal env v false vr = Except.ok o := by
  by_cases hm : vr.isMacro = true
  · exact ⟨none, resolveVal_macro_eq env v vr hff hfb hm⟩
  · exact ⟨lookupVar v vr.varName,
      resolveVal_plain env v vr hff hfb (by simpa using hm)⟩
theorem applyLoop_cons (env : Env) (v : VarMap) (b1 b2 b3 : Bool)
    (s : List Char) (vr : VarPos) (rest : List VarPos) (prev : Option VarPos)
    (st : LoopSt) :
    applyLoop env v b1 b2 b3 s (vr :: rest) prev st
      = match applyStep env v b1 b2 b3 s prev vr st with
        | Except.error e => Except.error e
        | Except.ok st2 => applyLoop env v b1 b2 b3 s rest (some vr) st2 := rfl

theorem partial_compose_loop (env : Env) (v1 v2 : VarMap) (s : List Char) :
    ∀ (rest : List VarPos) (prev1 prev12 : Option VarPos) (st1 st2 st12 : LoopSt),
    (∀ w ∈ rest, okPos s w ∧ st1.oldIdx ≤ w.openPos ∧ w.isNumber = false) →
    List.Chain' (fun a b => a.closePos + 1 ≤ b.openPos) rest →
    st1.oldIdx ≤ s.length →
    st2.oldIdx ≤ st1.b.length →
    st12 = seqSt st2 st1.b st1.oldIdx →
    (∀ (e : ApplyError),
      applyLoop env v1 false false false s rest prev1 st1 = Except.error e →
      applyLoop env (v1 ++ v2) false false false s rest prev12 st12
        = Except.error e) ∧
    (∀ (st1fin : LoopSt),
      applyLoop env v1 false false false s rest prev1 st1 = Except.ok st1fin →
      ∃ (delta : List VarPos) (st2fin : LoopSt),
        st1fin.missing = st1.missing ++ delta ∧
        st1fin.missingNames = st1.missingNames
          ++ delta.map (fun w => w.varName) ∧
        (∃ ext, st1fin.b = st1.b ++ ext) ∧
        (∀ w ∈ delta, w.isNumber = false ∧ w.openPos ≤ w.closePos ∧
          w.closePos + 1 ≤ st1fin.b.length) ∧
        applyLoop env v2 false false false st1fin.b delta none st2
          = Except.ok st2fin ∧
        st2fin.oldIdx ≤ st1fin.b.length ∧
        applyLoop env (v1 ++ v2) false false false s rest prev12 st12
          = Except.ok (seqSt st2fin st1fin.b st1fin.oldIdx)) := by
  intro rest
  induction rest with
  | nil =>
    intro prev1 prev12 st1 st2 st12 hl hch hidx1 hidx2 hseq
    subst hseq
    constructor
    · intro e h
      rw [show applyLoop env v1 false false false s ([] : List VarPos) prev1 st1
        = Except.ok st1 from rfl] at h
      exact Except.noConfusion h
    · intro st1fin h
      rw [show applyLoop env v1 false false false s ([] : List VarPos) prev1 st1
        = Except.ok st1 from rfl] at h
      have h2 : st1 = st1fin := Except.ok.inj h
      subst h2
      refine ⟨[], st2, by simp, by simp, ⟨[], by simp⟩, by simp, rfl, hidx2, rfl⟩
  | cons vr rest' ih =>
    intro prev1 prev12 st1 st2 st12 hl hch hidx1 hidx2 hseq
    subst hseq
    obtain ⟨hvrok, hold, hnum⟩ := hl vr (List.mem_cons_self vr _)
    have hvrok2 := hvrok
    unfold okPos at hvrok2
    obtain ⟨hoc, hcs, hdollar, hnb⟩ := hvrok2
    have hch' : List.Chain' (fun a b => a.closePos + 1 ≤ b.openPos) rest' :=
      (List.chain'_cons'.mp hch).2
    have hnext : ∀ w ∈ rest', vr.closePos + 1 ≤ w.openPos :=
      chain_ge vr rest' (fun x hx => by
        have hx2 := (hl x (List.mem_cons_of_mem vr hx)).1
        unfold okPos at hx2
        exact hx2.1) hch
    cases hres : resolveVal env v1 false vr with
    | error e0 =>
      have hstep1 := applyStep_fff_error env v1 s prev1 vr st1 e0 hres
      have hstep12 := applyStep_fff_error env (v1 ++ v2) s prev12 vr
        (seqSt st2 st1.b st1.oldIdx) e0
        (resolveVal_error_indep env v1 (v1 ++ v2) vr e0 hres)
      constructor
      · intro e h
        rw [applyLoop_cons] at h ⊢
        simp only [hstep1] at h
        simp only [hstep12]
        exact h
      · intro st1fin h
        rw [applyLoop_cons] at h
        simp only [hstep1] at h
        exact Except.noConfusion h
    | ok o =>
      cases o with
      | some val =>
        have hstep1 := applyStep_fff_some env v1 s prev1 vr st1 val hres
        have hstep12 := applyStep_fff_some env (v1 ++ v2) s prev12 vr
          (seqSt st2 st1.b st1.oldIdx) val
          (resolveVal_some_append env v1 v2 vr val hres)
        have holdeq : (applyResolved s prev1 vr st1 val).oldIdx
            = vr.closePos + 1 := by
          rw [applyResolved_nonum s prev1 vr st1 val hnum]
        have hbeq : (applyResolved s prev1 vr st1 val).b
            = st1.b ++ (slice s st1.oldIdx vr.openPos ++
              (if (decide (val ≠ []) && !vr.isBash && !vr.isFile
                  && vr.isShellQuote) = true
                then quoteShellStr val else val)) := by
          rw [applyResolved_nonum s prev1 vr st1 val hnum]
          dsimp only
          rw [List.append_assoc]
        have hmeq : (applyResolved s prev1 vr st1 val).missing
            = st1.missing := by
          rw [applyResolved_nonum s prev1 vr st1 val hnum]
        have hneq : (applyResolved s prev1 vr st1 val).missingNames
            = st1.missingNames := by
          rw [applyResolved_nonum s prev1 vr st1 val hnum]
        have hseq2 : applyResolved s prev12 vr (seqSt st2 st1.b st1.oldIdx) val
            = seqSt st2 (applyResolved s prev1 vr st1 val).b
                (applyResolved s prev1 vr st1 val).oldIdx := by
          rw [applyResolved_nonum s prev12 vr (seqSt st2 st1.b st1.oldIdx)
            val hnum, holdeq, hbeq]
          unfold seqSt
          dsimp only
          rw [List.drop_append_of_le_length hidx2]
          simp only [List.append_assoc]
        obtain ⟨ihE, ihOk⟩ := ih (some vr) (some vr)
          (applyResolved s prev1 vr st1 val) st2
          (applyResolved s prev12 vr (seqSt st2 st1.b st1.oldIdx) val)
          (fun w hw => ⟨(hl w (List.mem_cons_of_mem vr hw)).1,
            by rw [holdeq]; exact hnext w hw,
            (hl w (List.mem_cons_of_mem vr hw)).2.2⟩)
          hch'
          (by rw [holdeq]; omega)
          (by rw [hbeq]; simp only [List.length_append]; omega)
          hseq2
        constructor
        · intro e h
          rw [applyLoop_cons] at h ⊢
          simp only [hstep1] at h
          simp only [hstep12]
          exact ihE e h
        · intro st1fin h
          rw [applyLoop_cons] at h ⊢
          simp only [hstep1] at h
          simp only [hstep12]
          obtain ⟨delta, st2fin, c1, c2, c3, c4, c5, c6, c7⟩ := ihOk st1fin h
          refine ⟨delta, st2fin, ?_, ?_, ?_, c4, c5, c6, c7⟩
          · rw [c1, hmeq]
          · rw [c2, hneq]
          · obtain ⟨ext, hext⟩ := c3
            exact ⟨_, by rw [hext, hbeq, List.append_assoc]⟩
      | none =>
        obtain ⟨hff, hfb⟩ := resolveVal_none_flags env v1 vr hres
        have hres12 : resolveVal env (v1 ++ v2) false vr
            = resolveVal env v2 false vr :=
          resolveVal_none_append env v1 v2 vr hres
        have hstep1 := applyStep_fff_none env v1 s prev1 vr st1 hres
        have hB1len : (st1.b ++ slice s st1.oldIdx (vr.closePos + 1)).length
            = st1.b.length + (vr.closePos + 1 - st1.oldIdx) := by
          rw [List.length_append, slice_length s st1.oldIdx (vr.closePos + 1)
            (by omega)]
        have hcpnum : ({ vr with
            openPos := st1.b.length + vr.openPos - st1.oldIdx,
            closePos := st1.b.length + vr.closePos - st1.oldIdx }
            : VarPos).isNumber = false := hnum
        have hcpoc : ({ vr with
            openPos := st1.b.length + vr.openPos - st1.oldIdx,
            closePos := st1.b.length + vr.closePos - st1.oldIdx }
            : VarPos).openPos
            ≤ ({ vr with
            openPos := st1.b.length + vr.openPos - st1.oldIdx,
            closePos := st1.b.length + vr.closePos - st1.oldIdx }
            : VarPos).closePos := by
          dsimp only
          omega
        have hcpcl : ({ vr with
            openPos := st1.b.length + vr.openPos - st1.oldIdx,
            closePos := st1.b.length + vr.closePos - st1.oldIdx }
            : VarPos).closePos + 1
            ≤ (st1.b ++ slice s st1.oldIdx (vr.closePos + 1)).length := by
          dsimp only
          rw [hB1len]
          omega
        obtain ⟨o2, hres2⟩ := resolveVal_no_side env v2 vr hff hfb
        cases o2 with
        | some val2 =>
          rw [hres2] at hres12
          have hstep12 := applyStep_fff_some env (v1 ++ v2) s prev12 vr
            (seqSt st2 st1.b st1.oldIdx) val2 hres12
          have hres2cp : resolveVal env v2 false { vr with
              openPos := st1.b.length + vr.openPos - st1.oldIdx,
              closePos := st1.b.length + vr.closePos - st1.oldIdx }
              = Except.ok (some val2) := hres2
          have hstep2cp := applyStep_fff_some env v2
            (st1.b ++ slice s st1.oldIdx (vr.closePos + 1)) none
            { vr with openPos := st1.b.length + vr.openPos - st1.oldIdx,
                      closePos := st1.b.length + vr.closePos - st1.oldIdx }
            st2 val2 hres2cp
          have hST2old : (applyResolved
              (st1.b ++ slice s st1.oldIdx (vr.closePos + 1)) none
              { vr with openPos := st1.b.length + vr.openPos - st1.oldIdx,
                        closePos := st1.b.length + vr.closePos - st1.oldIdx }
              st2 val2).oldIdx
              = (st1.b ++ slice s st1.oldIdx (vr.closePos + 1)).length := by
            rw [applyResolved_nonum _ _ _ _ _ hcpnum]
            dsimp only
            rw [hB1len]
            omega
          have hST2m : (applyResolved
              (st1.b ++ slice s st1.oldIdx (vr.closePos + 1)) none
              { vr with openPos := st1.b.length + vr.openPos - st1.oldIdx,
                        closePos := st1.b.length + vr.closePos - st1.oldIdx }
              st2 val2).missing = st2.missing := by
            rw [applyResolved_nonum _ _ _ _ _ hcpnum]
          have hST2n : (applyResolved
              (st1.b ++ slice s st1.oldIdx (vr.closePos + 1)) none
              { vr with openPos := st1.b.length + vr.openPos - st1.oldIdx,
                        closePos := st1.b.length + vr.closePos - st1.oldIdx }
              st2 val2).missingNames = st2.missingNames := by
            rw [applyResolved_nonum _ _ _ _ _ hcpnum]
          have hST2b : (applyResolved
              (st1.b ++ slice s st1.oldIdx (vr.closePos + 1)) none
              { vr with openPos := st1.b.length + vr.openPos - st1.oldIdx,
                        closePos := st1.b.length + vr.closePos - st1.oldIdx }
              st2 val2).b
              = (st2.b ++ st1.b.drop st2.oldIdx) ++ slice s st1.oldIdx vr.openPos
                ++ (if (decide (val2 ≠ []) && !vr.isBash && !vr.isFile
                    && vr.isShellQuote) = true
                  then quoteShellStr val2 else val2) := by
            rw [applyResolved_nonum _ _ _ _ _ hcpnum]
            dsimp only
            rw [show st1.b.length + vr.openPos - st1.oldIdx
                = st1.b.length + (vr.openPos - st1.oldIdx) from by omega]
            rw [slice_clone st1.b (slice s st1.oldIdx (vr.closePos + 1))
              st2.oldIdx (vr.openPos - st1.oldIdx) hidx2]
            rw [slice_take s st1.oldIdx (vr.closePos + 1)
              (vr.openPos - st1.oldIdx) (by omega)]
            rw [show st1.oldIdx + (vr.openPos - st1.oldIdx) = vr.openPos
              from by omega]
            simp only [List.append_assoc]
          have hseq2 : applyResolved s prev12 vr (seqSt st2 st1.b st1.oldIdx) val2
              = seqSt (applyResolved
                  (st1.b ++ slice s st1.oldIdx (vr.closePos + 1)) none
                  { vr with openPos := st1.b.length + vr.openPos - st1.oldIdx,
                            closePos := st1.b.length + vr.closePos - st1.oldIdx }
                  st2 val2)
                (st1.b ++ slice s st1.oldIdx (vr.closePos + 1))
                (vr.closePos + 1) := by
            rw [applyResolved_nonum s prev12 vr (seqSt st2 st1.b st1.oldIdx)
              val2 hnum]
            unfold seqSt
            dsimp only
            rw [hST2b, hST2old, List.drop_length, List.append_nil]
            rw [hST2m, hST2n]
          obtain ⟨ihE, ihOk⟩ := ih (some vr) (some vr)
            { b := st1.b ++ slice s st1.oldIdx (vr.closePos + 1),
              oldIdx := vr.closePos + 1,
              missing := st1.missing ++ [{ vr with
                openPos := st1.b.length + vr.openPos - st1.oldIdx,
                closePos := st1.b.length + vr.closePos - st1.oldIdx }],
              missingNames := st1.missingNames ++ [vr.varName] }
            (applyResolved
              (st1.b ++ slice s st1.oldIdx (vr.closePos + 1)) none
              { vr with openPos := st1.b.length + vr.openPos - st1.oldIdx,
                        closePos := st1.b.length + vr.closePos - st1.oldIdx }
              st2 val2)
            (applyResolved s prev12 vr (seqSt st2 st1.b st1.oldIdx) val2)
            (fun w hw => ⟨(hl w (List.mem_cons_of_mem vr hw)).1,
              hnext w hw,
              (hl w (List.mem_cons_of_mem vr hw)).2.2⟩)
            hch'
            (by dsimp only; omega)
            (le_of_eq hST2old)
            hseq2
          constructor
          · intro e h
            rw [applyLoop_cons] at h ⊢
            simp only [hstep1] at h
            simp only [hstep12]
            exact ihE e h
          · intro st1fin h
            rw [applyLoop_cons] at h ⊢
            simp only [hstep1] at h
            simp only [hstep12]
            obtain ⟨delta, st2fin, c1, c2, c3, c4, c5, c6, c7⟩ := ihOk st1fin h
            obtain ⟨ext, hext⟩ := c3
            have hstepfin : applyStep env v2 false false false st1fin.b none
                { vr with openPos := st1.b.length + vr.openPos - st1.oldIdx,
                          closePos := st1.b.length + vr.closePos - st1.oldIdx }
                st2 = Except.ok (applyResolved
                  (st1.b ++ slice s st1.oldIdx (vr.closePos + 1)) none
                  { vr with openPos := st1.b.length + vr.openPos - st1.oldIdx,
                            closePos := st1.b.length + vr.closePos - st1.oldIdx }
                  st2 val2) := by
              rw [hext]
              dsimp only
              rw [applyStep_text env v2
                (st1.b ++ slice s st1.oldIdx (vr.closePos + 1)) ext none
                _ st2 hcpnum hcpoc hcpcl]
              exact hstep2cp
            refine ⟨{ vr with
                openPos := st1.b.length + vr.openPos - st1.oldIdx,
                closePos := st1.b.length + vr.closePos - st1.oldIdx } :: delta,
              st2fin, ?_, ?_, ?_, ?_, ?_, c6, c7⟩
            · rw [c1]
              dsimp only
              rw [List.append_assoc, List.singleton_append]
            · rw [c2]
              dsimp only
              simp only [List.map_cons, List.append_assoc, List.singleton_append]
            · refine ⟨slice s st1.oldIdx (vr.closePos + 1) ++ ext, ?_⟩
              rw [hext]
              dsimp only
              rw [List.append_assoc]
            · intro w hw
              rcases List.mem_cons.mp hw with hw1 | hw1
              · subst hw1
                refine ⟨hcpnum, hcpoc, ?_⟩
                rw [hext]
                dsimp only
                rw [List.length_append]
                omega
              · exact c4 w hw1
            · rw [applyLoop_cons]
              simp only [hstepfin]
              rw [applyLoop_prev_irrel env v2 st1fin.b delta
                (some { vr with
                  openPos := st1.b.length + vr.openPos - st1.oldIdx,
                  closePos := st1.b.length + vr.closePos - st1.oldIdx }) none _
                (fun w hw => (c4 w hw).1)]
              exact c5
        | none =>
          rw [hres2] at hres12
          have hstep12 := applyStep_fff_none env (v1 ++ v2) s prev12 vr
            (seqSt st2 st1.b st1.oldIdx) hres12
          have hres2cp : resolveVal env v2 false { vr with
              openPos := st1.b.length + vr.openPos - st1.oldIdx,
              closePos := st1.b.length + vr.closePos - st1.oldIdx }
              = Except.ok none := hres2
          have hstep2cp := applyStep_fff_none env v2
            (st1.b ++ slice s st1.oldIdx (vr.closePos + 1)) none
            { vr with openPos := st1.b.length + vr.openPos - st1.oldIdx,
                      closePos := st1.b.length + vr.closePos - st1.oldIdx }
            st2 hres2cp
          have hcpc1 : st1.b.length + vr.closePos - st1.oldIdx + 1
              = (st1.b ++ slice s st1.oldIdx (vr.closePos + 1)).length := by
            rw [hB1len]
            omega
          cases hst2c : applyStep env v2 false false false
              (st1.b ++ slice s st1.oldIdx (vr.closePos + 1)) none
              { vr with openPos := st1.b.length + vr.openPos - st1.oldIdx,
                        closePos := st1.b.length + vr.closePos - st1.oldIdx }
              st2 with
          | error e2 =>
            rw [hstep2cp] at hst2c
            exact Except.noConfusion hst2c
          | ok stc =>
            have hstc := Except.ok.inj (hstep2cp.symm.trans hst2c)
            cases hst12r : applyStep env (v1 ++ v2) false false false s prev12 vr
                (seqSt st2 st1.b st1.oldIdx) with
            | error e2 =>
              rw [hstep12] at hst12r
              exact Except.noConfusion hst12r
            | ok r12 =>
              have hr12 := Except.ok.inj (hstep12.symm.trans hst12r)
              have hstcold : stc.oldIdx
                  = (st1.b ++ slice s st1.oldIdx (vr.closePos + 1)).length := by
                rw [← hstc]
                dsimp only
                rw [hcpc1]
              have hseq3 : r12 = seqSt stc
                  (st1.b ++ slice s st1.oldIdx (vr.closePos + 1))
                  (vr.closePos + 1) := by
                rw [← hr12, ← hstc]
                unfold seqSt
                dsimp only
                rw [hcpc1]
                rw [slice_to_length, List.drop_length, List.append_nil]
                rw [List.drop_append_of_le_length hidx2]
                simp only [LoopSt.mk.injEq, List.append_assoc]
                refine ⟨trivial, trivial, ?_, trivial⟩
                congr 1
                congr 1
                simp only [VarPos.mk.injEq, true_and, and_true]
                constructor <;> (rw [List.length_append, List.length_drop]; omega)
              obtain ⟨ihE, ihOk⟩ := ih (some vr) (some vr)
                { b := st1.b ++ slice s st1.oldIdx (vr.closePos + 1),
                  oldIdx := vr.closePos + 1,
                  missing := st1.missing ++ [{ vr with
                    openPos := st1.b.length + vr.openPos - st1.oldIdx,
                    closePos := st1.b.length + vr.closePos - st1.oldIdx }],
                  missingNames := st1.missingNames ++ [vr.varName] }
                stc
                (seqSt stc (st1.b ++ slice s st1.oldIdx (vr.closePos + 1))
                  (vr.closePos + 1))
                (fun w hw => ⟨(hl w (List.mem_cons_of_mem vr hw)).1,
                  hnext w hw,
                  (hl w (List.mem_cons_of_mem vr hw)).2.2⟩)
                hch'
                (by dsimp only; omega)
                (le_of_eq hstcold)
                rfl
              constructor
              · intro e h
                rw [applyLoop_cons] at h ⊢
                simp only [hstep1] at h
                simp only [hst12r]
                rw [hseq3]
                exact ihE e h
              · intro st1fin h
                rw [applyLoop_cons] at h ⊢
                simp only [hstep1] at h
                simp only [hst12r]
                rw [hseq3]
                obtain ⟨delta, st2fin, c1, c2, c3, c4, c5, c6, c7⟩ := ihOk st1fin h
                obtain ⟨ext, hext⟩ := c3
                have hstepfin : applyStep env v2 false false false st1fin.b none
                    { vr with openPos := st1.b.length + vr.openPos - st1.oldIdx,
                              closePos := st1.b.length + vr.closePos - st1.oldIdx }
                    st2 = Except.ok stc := by
                  rw [hext]
                  dsimp only
                  rw [applyStep_text env v2
                    (st1.b ++ slice s st1.oldIdx (vr.closePos + 1)) ext none
                    _ st2 hcpnum hcpoc hcpcl]
                  exact hst2c
                refine ⟨{ vr with
                    openPos := st1.b.length + vr.openPos - st1.oldIdx,
                    closePos := st1.b.length + vr.closePos - st1.oldIdx } :: delta,
                  st2fin, ?_, ?_, ?_, ?_, ?_, c6, c7⟩
                · rw [c1]
                  dsimp only
                  rw [List.append_assoc, List.singleton_append]
                · rw [c2]
                  dsimp only
                  simp only [List.map_cons, List.append_assoc,
                    List.singleton_append]
                · refine ⟨slice s st1.oldIdx (vr.closePos + 1) ++ ext, ?_⟩
                  rw [hext]
                  dsimp only
                  rw [List.append_assoc]
                · intro w hw
                  rcases List.mem_cons.mp hw with hw1 | hw1
                  · subst hw1
                    refine ⟨hcpnum, hcpoc, ?_⟩
                    rw [hext]
                    dsimp only
                    rw [List.length_append]
                    omega
                  · exact c4 w hw1
                · rw [applyLoop_cons]
                  simp only [hstepfin]
                  rw [applyLoop_prev_irrel env v2 st1fin.b delta
                    (some { vr with
                      openPos := st1.b.length + vr.openPos - st1.oldIdx,
                      closePos := st1.b.length + vr.closePos - st1.oldIdx }) none _
                    (fun w hw => (c4 w hw).1)]
                  exact c5
theorem PartialApply_pos (c : Template) (vars : VarMap) (env : Env)
    (h : vars.length ≠ 0) :
    c.PartialApply vars env
      = match c.apply vars false false false env with
        | Except.ok t => Outcome.ok t
        | Except.error e => Outcome.fatal e := by
  unfold Template.PartialApply
  rw [if_neg h]

theorem apply_guard_true (c : Template) (v : VarMap) (env : Env)
    (h : c.vars = []) : c.apply v false false false env = Except.ok c := by
  unfold Template.apply
  rw [h]
  rfl

theorem apply_guard_false (c : Template) (v : VarMap) (env : Env)
    (h : c.vars ≠ []) :
    c.apply v false false false env
      = match applyLoop env v false false false c.template c.varPositions
          none ⟨[], 0, [], []⟩ with
        | Except.error e => Except.error e
        | Except.ok st =>
          Except.ok ⟨st.b ++ c.template.drop st.oldIdx, st.missing,
            getVars st.missingNames⟩ := by
  unfold Template.apply
  rw [if_neg (by simp [h])]

/-- C7 (amended): for a library-produced template none of whose
descriptors carries the `%d` numeric flag, partially applying two
disjoint-key mappings in sequence agrees with partially applying their
concatenation in one pass. -/
theorem claim_C7_amended (t : Template) (v1 v2 : VarMap) (env : Env)
    (hr : Reach t)
    (hnum : ∀ vr ∈ t.varPositions, vr.isNumber = false)
    (hdisj : ∀ p1 ∈ v1, ∀ p2 ∈ v2, p1.1 ≠ p2.1) :
    partialApplyTwice t v1 v2 env = t.PartialApply (v1 ++ v2) env := by
  have hok := Reach_okPositions t hr
  by_cases hv1 : v1.length = 0
  · have hv1n : v1 = [] := List.length_eq_zero.mp hv1
    subst hv1n
    rw [List.nil_append]
    unfold partialApplyTwice
    rw [show t.PartialApply [] env = Outcome.ok t from by
      unfold Template.PartialApply
      rfl]
  · by_cases hv2 : v2.length = 0
    · have hv2n : v2 = [] := List.length_eq_zero.mp hv2
      subst hv2n
      rw [List.append_nil]
      unfold partialApplyTwice
      cases hp : t.PartialApply v1 env with
      | ok t1 =>
        show t1.PartialApply [] env = Outcome.ok t1
        unfold Template.PartialApply
        rfl
      | fatal e => rfl
    · unfold partialApplyTwice
      rw [PartialApply_pos t v1 env hv1]
      rw [PartialApply_pos t (v1 ++ v2) env
        (by simp only [List.length_append]; omega)]
      by_cases hvars : t.vars = []
      · rw [apply_guard_true t v1 env hvars,
          apply_guard_true t (v1 ++ v2) env hvars]
        dsimp only
        rw [PartialApply_pos t v2 env hv2]
        rw [apply_guard_true t v2 env hvars]
      · rw [apply_guard_false t v1 env hvars,
          apply_guard_false t (v1 ++ v2) env hvars]
        obtain ⟨hE, hOk⟩ := partial_compose_loop env v1 v2 t.template
          t.varPositions none none ⟨[], 0, [], []⟩ ⟨[], 0, [], []⟩
          ⟨[], 0, [], []⟩
          (fun w hw => ⟨hok.1 w hw, Nat.zero_le _, hnum w hw⟩)
          hok.2 (Nat.zero_le _) (Nat.le_refl _) rfl
        cases hloop1 : applyLoop env v1 false false false t.template
            t.varPositions none ⟨[], 0, [], []⟩ with
        | error e =>
          rw [hE e hloop1]
        | ok st1fin =>
          obtain ⟨delta, st2fin, c1, c2, c3, c4, c5, c6, c7⟩ :=
            hOk st1fin hloop1
          simp only [List.nil_append] at c1 c2
          rw [c7]
          dsimp only
          rw [PartialApply_pos _ v2 env hv2]
          cases delta with
          | nil =>
            simp only [List.map_nil] at c2
            have hvars1 : getVars st1fin.missingNames = [] := by
              rw [c2]
              rfl
            rw [apply_guard_true _ v2 env hvars1]
            have hst2fin : (⟨[], 0, [], []⟩ : LoopSt) = st2fin :=
              Except.ok.inj c5
            rw [← hst2fin]
            dsimp only
            unfold seqSt
            dsimp only
            rw [c1, c2]
            simp only [List.nil_append, List.drop_zero]
          | cons d0 delta2 =>
            have hvars1 : getVars st1fin.missingNames ≠ [] := by
              rw [c2]
              simp only [List.map_cons]
              exact getVars_ne_nil _ _
            rw [apply_guard_false _ v2 env hvars1]
            dsimp only
            rw [c1]
            rw [applyLoop_text env v2 st1fin.b (t.template.drop st1fin.oldIdx)
              (d0 :: delta2) none ⟨[], 0, [], []⟩ c4]
            rw [c5]
            dsimp only
            unfold seqSt
            dsimp only
            rw [List.drop_append_of_le_length c6]
            rw [List.append_assoc]

/-- C7, witness: on the compiled template of `"a $\x7bx\x7d $\x7by\x7d b"`
(reachable, no numeric descriptors) with the disjoint mappings
\x7bx ↦ 1\x7d and \x7by ↦ 2\x7d, the sequential and the merged partial
application agree. -/
theorem claim_C7_witness :
    Reach (Compile (str "a $\x7bx\x7d $\x7by\x7d b")) ∧
      (∀ vr ∈ (Compile (str "a $\x7bx\x7d $\x7by\x7d b")).varPositions,
        vr.isNumber = false) ∧
      (∀ p1 ∈ [((str "x"), (str "1"))], ∀ p2 ∈ [((str "y"), (str "2"))],
        p1.1 ≠ p2.1) ∧
      partialApplyTwice (Compile (str "a $\x7bx\x7d $\x7by\x7d b"))
          [((str "x"), (str "1"))] [((str "y"), (str "2"))] env0
        = (Compile (str "a $\x7bx\x7d $\x7by\x7d b")).PartialApply
            ([((str "x"), (str "1"))] ++ [((str "y"), (str "2"))]) env0 :=
  ⟨Reach.compile (str "a $\x7bx\x7d $\x7by\x7d b"), by decide, by decide,
    claim_C7_amended (Compile (str "a $\x7bx\x7d $\x7by\x7d b"))
      [((str "x"), (str "1"))] [((str "y"), (str "2"))] env0
      (Reach.compile (str "a $\x7bx\x7d $\x7by\x7d b")) (by decide) (by decide)⟩
end VT
